import Mathlib

/-!
Verification model of `tools/sync_i18n.py` (the Everywhere i18n synchronizer).

The Python tool reads a base `.resx` resource file, diffs its ordered key list
against each localized `Strings.<lang>.resx` file, classifies missing keys as
copy-verbatim (no-translate patterns) or translatable, batches translatable
keys, calls an LLM translation provider per batch, merges the results under
non-overwrite rules, and rewrites each localized file in base key order.

Modelling conventions:
* Python `dict[str, str]` is an insertion-ordered association list with unique
  keys (`Dict` below); `dinsert` updates in place keeping the original
  position when the key is present and appends otherwise, exactly like CPython
  dict assignment, so iteration order matches CPython.
* A `.resx` file on disk is `DiskFile`: either XML-unparsable (`malformed`) or
  parsed (`good`), each carrying the optional leading language comment that
  `_get_language_comment` would extract.  `_write_resx` serializes
  deterministically (fixed headers, fixed pretty-printing), so two writes are
  byte-identical iff they write the same entry sequence and comment; we model
  the written file by that entry sequence and comment.
* The translation endpoint is the external collaborator; at the `run` level it
  is a function `Provider` from the request mapping and language name to an
  optional result mapping, mirroring `_invoke_ai_translation`'s interface.
* The internals of `_invoke_ai_translation` are modelled separately
  (`invokeAiTranslation`): the chat-completion call outcome is abstracted as
  `ChatOutcome` (an `APIError`, or a list of choices whose message content is
  `Option String`, since the client library types `message.content` as
  `Optional[str]`); `json.loads` and the markdown-fence regex are external
  string functions passed as parameters; exceptions that the `try/except`
  does not catch are surfaced as `Except.error`.
-/

namespace SyncI18n

abbrev Key := String
abbrev Val := String

/-- Python `dict[str, str]`: insertion-ordered association list whose unique-key
invariant is maintained by `dinsert`. -/
abbrev Dict := List (Key × Val)

/-- Python `k in d`. -/
def dmem (d : Dict) (k : Key) : Bool :=
  d.any (fun p => p.1 == k)

/-- Python `d.get(k)`: value of the (unique) entry for `k`, if any. -/
def dget? (d : Dict) (k : Key) : Option Val :=
  (d.find? (fun p => p.1 == k)).map Prod.snd

/-- Python `d[k]` at call sites where the key is known to be present
(total here, defaulting to `""`). -/
def dgetD (d : Dict) (k : Key) : Val :=
  (dget? d k).getD ""

/-- Python `d[k] = v`: in-place update keeping the entry's position when `k`
is already present, append otherwise (CPython dict semantics). -/
def dinsert (d : Dict) (k : Key) (v : Val) : Dict :=
  if dmem d k then d.map (fun p => if p.1 == k then (k, v) else p)
  else d ++ [(k, v)]

/-- Python `dict(pairs)` / a `for` loop of dict assignments: later duplicate
keys overwrite the value but keep the first occurrence's position. -/
def dictOf (l : List (Key × Val)) : Dict :=
  l.foldl (fun d p => dinsert d p.1 p.2) []

/-- Python `list(d.keys())` (iteration order = insertion order). -/
def dkeys (d : Dict) : List Key :=
  d.map Prod.fst

/-- A localized (or base) `.resx` file on disk.  `malformed` is a file that
`ET.parse` rejects with `ParseError`; both constructors carry the optional
language comment that `_get_language_comment` extracts from the raw text. -/
inductive DiskFile where
  | malformed (comment : Option String)
  | good (entries : List (Key × Val)) (comment : Option String)
deriving DecidableEq, Repr

/-- `_read_resx_ordered`: list of `(name, value)` pairs in document order;
a `ParseError` yields `[]`. -/
def readOrdered : DiskFile → List (Key × Val)
  | .malformed _ => []
  | .good es _ => es

/-- `_read_resx`: same traversal but accumulated into a dict. -/
def readDict (f : DiskFile) : Dict :=
  dictOf (readOrdered f)

/-- `_get_language_comment`: the leading `<!-- ... -->` comment, if any. -/
def readComment : DiskFile → Option String
  | .malformed c => c
  | .good _ c => c

/-- The `data` entry sequence `_write_resx` emits: one `(name, value)` per
`name` in `base_order` (in that order) for which `resources` has a value. -/
def writeEntries (resources : Dict) : List Key → List (Key × Val)
  | [] => []
  | k :: rest =>
    if dmem resources k then (k, dgetD resources k) :: writeEntries resources rest
    else writeEntries resources rest

/-- `_write_resx` as a whole: deterministic serialization of the emitted entry
sequence plus the re-attached language comment (headers are constant). -/
def writeResx (resources : Dict) (baseOrder : List Key) (langComment : Option String) : DiskFile :=
  .good (writeEntries resources baseOrder) langComment

/-- `NO_TRANSLATE_PATTERNS`, reduced to literal prefixes: the single pattern
is a literal followed by `.*`, and `re.match` anchors only at the start, so it
succeeds exactly when the key starts with the literal. -/
def noTranslateLiterals : List String :=
  ["SettingsSelectionItem_Common_Language_"]

/-- List-of-chars test that `pat` is a leading part of `s`. -/
def hasLeadChars : List Char → List Char → Bool
  | [], _ => true
  | _ :: _, [] => false
  | p :: ps, c :: cs => p == c && hasLeadChars ps cs

/-- `any(re.match(pattern, key) for pattern in NO_TRANSLATE_PATTERNS)`. -/
def isNoTranslate (k : Key) : Bool :=
  noTranslateLiterals.any (fun p => hasLeadChars p.toList k.toList)

/-- The listdir filter `f.startswith('Strings.') and f.endswith('.resx')`. -/
def stringsFilter (name : String) : Bool :=
  hasLeadChars "Strings.".toList name.toList
    && hasLeadChars ".resx".toList.reverse name.toList.reverse

/-- Does the list start with the literal `.resx`? (used for the `\.resx` part
of the language-code regex). -/
def isDotResx : List Char → Bool
  | '.' :: 'r' :: 'e' :: 's' :: 'x' :: _ => true
  | _ => false

/-- Greedy `(.+)\.resx` over the rest of the filename: the longest nonempty
newline-free leading part followed immediately by the literal `.resx`
(`re.match` does not anchor the end, so trailing characters are allowed). -/
def langCaptureAux : List Char → Option (List Char)
  | [] => none
  | c :: rest =>
    if c == '\n' then none
    else
      match langCaptureAux rest with
      | some m => some (c :: m)
      | none => if isDotResx rest then some [c] else none

/-- Drop the literal `pat` from the head of `l`, if it is there. -/
def dropLead : List Char → List Char → Option (List Char)
  | [], l => some l
  | _ :: _, [] => none
  | p :: ps, c :: cs => if p == c then dropLead ps cs else none

/-- `re.match(r'Strings\.(.+)\.resx', filename)`: the captured language code,
or `none` when the pattern does not match (e.g. for `Strings.resx`, where the
segment between the two dots would be empty). -/
def langCodeOf (filename : String) : Option String :=
  match dropLead "Strings.".toList filename.toList with
  | none => none
  | some rest => (langCaptureAux rest).map (fun l => String.mk l)

/-- The translation collaborator at the granularity `run` uses it:
`_invoke_ai_translation(batch_resources, lang_name)` returning the parsed
key→text mapping (as an ordered pair list, the order `translations.items()`
iterates) or `None`. -/
abbrev Provider := List (Key × Val) → String → Option (List (Key × Val))

/-- `batch_resources = {key: to_translate[key] for key in batch_keys}`
(batch keys are pairwise distinct, so the comprehension is a map). -/
def reqOf (toTranslate : Dict) (batchKeys : List Key) : List (Key × Val) :=
  batchKeys.map (fun k => (k, dgetD toTranslate k))

/-- `num_batches = (len(keys_to_translate) + self.batch_size - 1) // self.batch_size`. -/
def numBatches (len bs : Nat) : Nat :=
  (len + bs - 1) / bs

/-- `keys_to_translate[i*bs : i*bs + bs]`. -/
def batchSlice (keys : List Key) (bs i : Nat) : List Key :=
  (keys.drop (i * bs)).take bs

/-- The batches the `for i in range(num_batches)` loop slices out. -/
def batchesOf (keys : List Key) (bs : Nat) : List (List Key) :=
  (List.range (numBatches keys.length bs)).map (batchSlice keys bs)

/-- The merge loop over `translations.items()`:
already-present keys and keys outside `to_translate` are ignored (each with a
warning), everything else is stored. -/
def mergeTranslations (toTranslate : Dict) : Dict → List (Key × Val) → Dict
  | allRes, [] => allRes
  | allRes, (k, v) :: rest =>
    if dmem allRes k then mergeTranslations toTranslate allRes rest
    else if !(dmem toTranslate k) then mergeTranslations toTranslate allRes rest
    else mergeTranslations toTranslate (dinsert allRes k v) rest

/-- The batch loop body: submit each batch in order, merging a successful
result, skipping a failed one; the second component records every request
submitted to the provider, in order. -/
def runBatchesGo (p : Provider) (langName : String) (toTranslate : Dict) :
    List (List Key) → Dict × List (List (Key × Val)) → Dict × List (List (Key × Val))
  | [], acc => acc
  | b :: rest, (allRes, reqs) =>
    let req := reqOf toTranslate b
    match p req langName with
    | some ts => runBatchesGo p langName toTranslate rest
        (mergeTranslations toTranslate allRes ts, reqs ++ [req])
    | none => runBatchesGo p langName toTranslate rest (allRes, reqs ++ [req])

/-- The whole `if to_translate:` batch section. -/
def runBatches (p : Provider) (langName : String) (toTranslate : Dict) (bs : Nat)
    (allRes : Dict) : Dict × List (List (Key × Val)) :=
  runBatchesGo p langName toTranslate (batchesOf (dkeys toTranslate) bs) (allRes, [])

/-- `missing_keys = [key for key in base_resources if key not in existing_resources]`. -/
def missingOf (baseResources existing : Dict) : List Key :=
  (dkeys baseResources).filter (fun k => !(dmem existing k))

/-- The classification loop over `missing_keys`: no-translate keys are copied
verbatim from the base into `all_resources`, the rest go into `to_translate`. -/
def classifyMissing (baseResources : Dict) :
    List Key → Dict × Dict → Dict × Dict
  | [], acc => acc
  | k :: rest, (allRes, toTr) =>
    if isNoTranslate k then
      classifyMissing baseResources rest (dinsert allRes k (dgetD baseResources k), toTr)
    else
      classifyMissing baseResources rest (allRes, dinsert toTr k (dgetD baseResources k))

/-- The `to_translate` dict a run over `existing` builds (second component of
the classification loop's result). -/
def tkOf (baseResources existing : Dict) : Dict :=
  (classifyMissing baseResources (missingOf baseResources existing) (existing, [])).2

/-- `all_resources` right after the classification loop (existing entries plus
verbatim copies), before any provider result is merged (first component of the
classification loop's result). -/
def preMergedOf (baseResources existing : Dict) : Dict :=
  (classifyMissing baseResources (missingOf baseResources existing) (existing, [])).1

/-- The per-file synchronization core (everything `run` does to one file's
resources between reading it and writing it back): if nothing is missing the
existing mapping is kept unchanged (only reordered by the write); otherwise
missing keys are classified, and the `if to_translate:` batch section runs.
Returns the merged mapping and the list of provider requests issued. -/
def syncResources (baseResources : Dict) (p : Provider) (bs : Nat) (langName : String)
    (existing : Dict) : Dict × List (List (Key × Val)) :=
  if (missingOf baseResources existing).isEmpty then (existing, [])
  else if (tkOf baseResources existing).isEmpty then (preMergedOf baseResources existing, [])
  else runBatches p langName (tkOf baseResources existing) bs (preMergedOf baseResources existing)

/-- Result of processing one localized file: the rewritten file and the
provider requests issued for it. -/
structure FileResult where
  out : DiskFile
  requests : List (List (Key × Val))
deriving DecidableEq, Repr

/-- One iteration of `run`'s loop over a matching localized file. -/
def processFile (baseResources : Dict) (baseKeys : List Key) (p : Provider) (bs : Nat)
    (langCode : String) (f : DiskFile) : FileResult :=
  { out := writeResx
      (syncResources baseResources p bs ((readComment f).getD langCode) (readDict f)).1
      baseKeys (readComment f),
    requests := (syncResources baseResources p bs ((readComment f).getD langCode) (readDict f)).2 }

/-- `run`'s treatment of one directory entry: files failing the listdir filter
or the language-code regex are left untouched; the rest are processed and
rewritten. -/
def runStep (baseResources : Dict) (baseKeys : List Key) (p : Provider) (bs : Nat)
    (entry : String × DiskFile) : String × DiskFile :=
  if stringsFilter entry.1 then
    match langCodeOf entry.1 with
    | none => entry
    | some langCode =>
      (entry.1, (processFile baseResources baseKeys p bs langCode entry.2).out)
  else entry

/-- `os.path.exists` + content of a named file in the directory listing. -/
def dirFind (dir : List (String × DiskFile)) (name : String) : Option DiskFile :=
  (dir.find? (fun p => p.1 == name)).map Prod.snd

/-- `I18nSync.run`: the directory is the list of existing files (name and
content).  A missing base file aborts at once, leaving the directory as is;
otherwise the base is read (a parse error yields zero base entries) and every
directory entry is processed independently. -/
def run (dir : List (String × DiskFile)) (p : Provider) (bs : Nat) :
    List (String × DiskFile) :=
  match dirFind dir "Strings.resx" with
  | none => dir
  | some baseF =>
    let baseOrdered := readOrdered baseF
    let baseResources := dictOf baseOrdered
    let baseKeys := baseOrdered.map Prod.fst
    dir.map (runStep baseResources baseKeys p bs)

/-! ### Model of `_invoke_ai_translation`'s internals -/

/-- What `json.loads` can hand back when it succeeds: a JSON object of
strings (the only shape the caller can consume), or any other JSON value. -/
inductive JsonVal where
  | jobj (fields : List (Key × Val))
  | jother
deriving DecidableEq, Repr

/-- Exceptions the function body can raise that its `try/except` does not
catch. -/
inductive PyExn where
  | indexError
  | attributeError
deriving DecidableEq, Repr

/-- Outcome of `self.client.chat.completions.create(...)`: either the client
raised `APIError` (transport/HTTP failure after its own retries), or it
returned a completion whose choices each carry an optional message content
(the client library types `message.content` as `Optional[str]`). -/
inductive ChatOutcome where
  | apiError
  | completed (choices : List (Option String))
deriving DecidableEq, Repr

/-- Python `str.strip()` (whitespace trimming; ASCII whitespace modelled). -/
def isPySpace (c : Char) : Bool :=
  c == ' ' || c == '\t' || c == '\n' || c == '\r' || c == '\x0b' || c == '\x0c'

/-- `content.strip()`. -/
def pyStrip (s : String) : String :=
  String.mk (((s.toList.dropWhile isPySpace).reverse.dropWhile isPySpace).reverse)

/-- `content.strip()` followed by the markdown-fence cleanup
(`re.search(r'```json\s*([\s\S]+?)\s*```', content)` replacing the content by
its captured group when it matches); the fence extraction is the external
regex engine, passed in as a function. -/
def cleanContent (fenceExtract : String → Option String) (content : String) : String :=
  let c := pyStrip content
  (fenceExtract c).getD c

/-- `_invoke_ai_translation`, given the call outcome.  `json.loads` is the
external parser, passed in as a function returning `none` on
`JSONDecodeError`.  `Except.error` marks an exception escaping the function
(not caught by its `except APIError` / `except json.JSONDecodeError`):
`choices[0]` on an empty list raises `IndexError`, `.strip()` on a `None`
content raises `AttributeError`. -/
def invokeAiTranslation (fenceExtract : String → Option String)
    (jsonLoads : String → Option JsonVal) :
    ChatOutcome → Except PyExn (Option JsonVal)
  | .apiError => .ok none
  | .completed [] => .error .indexError
  | .completed (none :: _) => .error .attributeError
  | .completed (some content :: _) => .ok (jsonLoads (cleanContent fenceExtract content))

/-- A provider stub that always fails (used for concrete evaluations). -/
def noProvider : Provider := fun _ _ => none

/-- A provider stub that echoes every request back unchanged (a provider that
always succeeds and returns a translation for exactly the requested keys). -/
def echoProvider : Provider := fun req _ => some req

/-- Concrete provider for exercising the merge loop: asked to translate key
`A` it answers with key `B` instead (a key from a different batch of the same
run); asked to translate `B` it answers `B`. -/
def crossBatchProvider : Provider := fun req _ =>
  match req with
  | [("A", _)] => some [("B", "x")]
  | [("B", _)] => some [("B", "y")]
  | _ => none

/-- Concrete provider that fails exactly on the batch `["k3", "k4"]` and
translates every other batch by prefixing `T`. -/
def failMidProvider : Provider := fun req _ =>
  if req.map Prod.fst = ["k3", "k4"] then none
  else some (req.map (fun q => (q.1, String.append "T" q.2)))

/-- A six-key base dictionary (three batches of two at batch size 2). -/
def sixKeyBase : Dict :=
  dictOf [("k1", "v1"), ("k2", "v2"), ("k3", "v3"), ("k4", "v4"), ("k5", "v5"), ("k6", "v6")]

/-- A concrete directory: a base file and one Spanish localized file. -/
def sampleDir : List (String × DiskFile) :=
  [("Strings.resx", DiskFile.good [("A", "Hi"), ("B", "Bye")] none),
   ("Strings.es.resx", DiskFile.good [("A", "Hola")] (some "Spanish"))]

end SyncI18n

/-! ### Dictionary lemmas -/

namespace SyncI18n

theorem dmem_iff {d : Dict} {k : Key} : dmem d k = true ↔ k ∈ dkeys d := by
  induction d with
  | nil => simp [dmem, dkeys]
  | cons p d ih =>
    simp only [dmem, dkeys, List.any_cons, List.map_cons, List.mem_cons, Bool.or_eq_true,
      beq_iff_eq] at *
    rw [ih]
    exact or_congr_left eq_comm

theorem dmem_eq_false_iff {d : Dict} {k : Key} :
    dmem d k = false ↔ k ∉ dkeys d := by
  rw [← Bool.not_eq_true, not_iff_not]
  exact dmem_iff

theorem find?_self_eq_none {d : Dict} {k : Key} (h : dmem d k = false) :
    d.find? (fun p => p.1 == k) = none := by
  induction d with
  | nil => rfl
  | cons p d ih =>
    simp only [dmem, List.any_cons, Bool.or_eq_false_iff] at h
    rw [List.find?_cons_of_neg _ (by simp [h.1]), ih h.2]

theorem dget?_eq_none_of_dmem_eq_false {d : Dict} {k : Key} (h : dmem d k = false) :
    dget? d k = none := by
  rw [dget?, find?_self_eq_none h]
  rfl

theorem dget?_isSome_of_dmem {d : Dict} {k : Key} (h : dmem d k = true) :
    (dget? d k).isSome = true := by
  induction d with
  | nil => simp [dmem] at h
  | cons p d ih =>
    rcases hp : (p.1 == k) with _ | _
    · simp only [dmem, List.any_cons, hp, Bool.false_or] at h
      rw [dget?]
      simp only [List.find?_cons, hp]
      exact ih h
    · rw [dget?]
      simp only [List.find?_cons, hp]
      rfl

theorem dmem_eq_false_of_dget?_eq_none {d : Dict} {k : Key} (h : dget? d k = none) :
    dmem d k = false := by
  by_contra hc
  have := dget?_isSome_of_dmem (Bool.of_not_eq_false hc)
  rw [h] at this
  simp at this

theorem mem_of_dget?_eq_some {d : Dict} {k : Key} {v : Val} (h : dget? d k = some v) :
    (k, v) ∈ d := by
  induction d with
  | nil => simp [dget?] at h
  | cons p d ih =>
    rcases hp : (p.1 == k) with _ | _
    · rw [dget?] at h
      simp only [List.find?_cons, hp] at h
      exact List.mem_cons_of_mem _ (ih h)
    · rcases p with ⟨a, b⟩
      rw [dget?] at h
      simp only [List.find?_cons, hp] at h
      simp only [beq_iff_eq] at hp
      have hb : b = v := by simpa using h
      subst hp
      subst hb
      exact List.mem_cons_self _ _

theorem find?_update_self {d : Dict} {k : Key} (v : Val) (h : dmem d k = true) :
    (d.map (fun p => if p.1 == k then (k, v) else p)).find? (fun p => p.1 == k)
      = some (k, v) := by
  induction d with
  | nil => simp [dmem] at h
  | cons p d ih =>
    rcases hp : (p.1 == k) with _ | _
    · simp only [dmem, List.any_cons, hp, Bool.false_or] at h
      rw [List.map_cons, if_neg (by simp_all), List.find?_cons_of_neg _ (by simp [hp])]
      exact ih h
    · rw [List.map_cons, if_pos (by simp_all), List.find?_cons_of_pos _ (by simp)]

theorem find?_update_ne {d : Dict} {k k' : Key} (hne : k ≠ k') (v : Val) :
    (d.map (fun p => if p.1 == k' then (k', v) else p)).find? (fun p => p.1 == k)
      = d.find? (fun p => p.1 == k) := by
  induction d with
  | nil => rfl
  | cons p d ih =>
    rcases hp : (p.1 == k') with _ | _
    · rw [List.map_cons, if_neg (by simp [hp])]
      simp only [List.find?_cons]
      rcases hpk : (p.1 == k) with _ | _
      · simp only [hpk]
        exact ih
      · simp [hpk]
    · have hp1 : p.1 = k' := by simpa using hp
      have hpk : (p.1 == k) = false := by
        rw [beq_eq_false_iff_ne, hp1]
        exact fun hh => hne hh.symm
      have hk : (k' == k) = false := by
        rw [beq_eq_false_iff_ne]
        exact fun hh => hne hh.symm
      rw [List.map_cons, if_pos hp]
      simp only [List.find?_cons, hk, hpk]
      exact ih

theorem dget?_dinsert_self (d : Dict) (k : Key) (v : Val) :
    dget? (dinsert d k v) k = some v := by
  rw [dinsert]
  rcases h : dmem d k with _ | _
  · rw [if_neg (by simp), dget?, List.find?_append, find?_self_eq_none h]
    simp [List.find?_cons]
  · rw [if_pos rfl, dget?, find?_update_self v h]
    rfl

theorem dget?_dinsert_ne (d : Dict) {k k' : Key} (hne : k ≠ k') (v : Val) :
    dget? (dinsert d k' v) k = dget? d k := by
  rw [dinsert]
  rcases h : dmem d k' with _ | _
  · rw [if_neg (by simp), dget?, List.find?_append]
    rcases hf : d.find? (fun p => p.1 == k) with _ | w
    · rw [dget?, hf]
      have hk : ((k', v).1 == k) = false := by
        rw [beq_eq_false_iff_ne]
        exact fun hh => hne hh.symm
      rw [Option.none_or]
      simp only [List.find?_cons, hk, List.find?_nil]
    · rw [dget?, hf]
      rfl
  · rw [if_pos rfl, dget?, find?_update_ne hne v, dget?]

theorem dmem_dinsert_self (d : Dict) (k : Key) (v : Val) :
    dmem (dinsert d k v) k = true := by
  by_contra hc
  have := dget?_eq_none_of_dmem_eq_false (Bool.of_not_eq_true hc)
  rw [dget?_dinsert_self] at this
  simp at this

theorem dmem_dinsert_ne (d : Dict) {k k' : Key} (hne : k ≠ k') (v : Val) :
    dmem (dinsert d k' v) k = dmem d k := by
  rcases h : dmem d k with _ | _
  · by_contra hc
    have h1 := dget?_isSome_of_dmem (Bool.of_not_eq_false hc)
    rw [dget?_dinsert_ne _ hne, dget?_eq_none_of_dmem_eq_false h] at h1
    simp at h1
  · by_contra hc
    have h1 := dget?_eq_none_of_dmem_eq_false (Bool.of_not_eq_true hc)
    rw [dget?_dinsert_ne _ hne] at h1
    have h2 := dget?_isSome_of_dmem h
    rw [h1] at h2
    simp at h2

theorem dmem_dinsert_mono {d : Dict} {k : Key} (k' : Key) (v : Val)
    (h : dmem d k = true) : dmem (dinsert d k' v) k = true := by
  by_cases hk : k = k'
  · subst hk; exact dmem_dinsert_self d k v
  · rw [dmem_dinsert_ne d hk v]; exact h

theorem dmem_dinsert_elim {d : Dict} {k k' : Key} {v : Val}
    (h : dmem (dinsert d k' v) k = true) : k = k' ∨ dmem d k = true := by
  by_cases hk : k = k'
  · exact Or.inl hk
  · rw [dmem_dinsert_ne d hk v] at h
    exact Or.inr h

theorem dget?_eq_some_dgetD_of_dmem {d : Dict} {k : Key} (h : dmem d k = true) :
    dget? d k = some (dgetD d k) := by
  rcases hs : dget? d k with _ | w
  · have := dget?_isSome_of_dmem h
    rw [hs] at this
    simp at this
  · rw [dgetD, hs]
    rfl

theorem dkeys_dinsert_nodup {d : Dict} {k : Key} {v : Val} (h : (dkeys d).Nodup) :
    (dkeys (dinsert d k v)).Nodup := by
  rw [dinsert]
  rcases hm : dmem d k with _ | _
  · rw [if_neg (by simp)]
    simp only [dkeys, List.map_append, List.map_cons, List.map_nil]
    rw [List.nodup_append]
    refine ⟨h, List.nodup_singleton _, ?_⟩
    intro a ha
    simp only [List.mem_singleton]
    intro hb
    subst hb
    exact absurd (dmem_iff.mpr ha) (by simp [hm])
  · rw [if_pos rfl]
    have : dkeys (d.map fun p => if p.1 == k then (k, v) else p) = dkeys d := by
      simp only [dkeys, List.map_map]
      refine List.map_congr_left ?_
      intro p _
      simp only [Function.comp_apply]
      rcases hp : (p.1 == k) with _ | _
      · rw [if_neg (by simp [hp])]
      · rw [if_pos (by simp [hp])]
        simp only [beq_iff_eq] at hp
        exact hp.symm
    rw [this]
    exact h

theorem dkeys_dictOf_nodup (l : List (Key × Val)) : (dkeys (dictOf l)).Nodup := by
  suffices h : ∀ (d : Dict), (dkeys d).Nodup →
      (dkeys (l.foldl (fun d p => dinsert d p.1 p.2) d)).Nodup by
    exact h [] (by simp [dkeys])
  induction l with
  | nil => intro d hd; exact hd
  | cons p l ih =>
    intro d hd
    exact ih _ (dkeys_dinsert_nodup hd)

theorem dmem_foldl_dinsert {l : List (Key × Val)} {d : Dict} {k : Key} :
    dmem (l.foldl (fun d p => dinsert d p.1 p.2) d) k = true
      ↔ dmem d k = true ∨ k ∈ l.map Prod.fst := by
  induction l generalizing d with
  | nil => simp
  | cons p l ih =>
    simp only [List.foldl_cons, List.map_cons, List.mem_cons]
    rw [ih]
    constructor
    · rintro (h | h)
      · rcases dmem_dinsert_elim h with h | h
        · exact Or.inr (Or.inl h)
        · exact Or.inl h
      · exact Or.inr (Or.inr h)
    · rintro (h | h | h)
      · exact Or.inl (dmem_dinsert_mono _ _ h)
      · subst h; exact Or.inl (dmem_dinsert_self _ _ _)
      · exact Or.inr h

theorem dmem_dictOf {l : List (Key × Val)} {k : Key} :
    dmem (dictOf l) k = true ↔ k ∈ l.map Prod.fst := by
  rw [dictOf, dmem_foldl_dinsert]
  simp [dmem]

theorem dget?_foldl_dinsert_const {l : List (Key × Val)} {k : Key} {w : Val}
    (hl : ∀ v, (k, v) ∈ l → v = w) :
    ∀ d : Dict, (dget? d k = none ∨ dget? d k = some w) →
      (k ∈ l.map Prod.fst ∨ dmem d k = true) →
      dget? (l.foldl (fun d p => dinsert d p.1 p.2) d) k = some w := by
  induction l with
  | nil =>
    intro d hd hm
    simp only [List.foldl_nil]
    rcases hd with hd | hd
    · rcases hm with hm | hm
      · simp at hm
      · have hs := dget?_isSome_of_dmem hm
        rw [hd] at hs
        simp at hs
    · exact hd
  | cons p l ih =>
    intro d hd hm
    rcases p with ⟨k1, v1⟩
    by_cases hk : k1 = k
    · subst hk
      have hv : v1 = w := hl v1 (List.mem_cons_self _ _)
      simp only [List.foldl_cons]
      refine ih (fun u hu => hl u (List.mem_cons_of_mem _ hu)) _ ?_
        (Or.inr (dmem_dinsert_self d k1 v1))
      rw [dget?_dinsert_self, hv]
      exact Or.inr rfl
    · simp only [List.foldl_cons]
      refine ih (fun u hu => hl u (List.mem_cons_of_mem _ hu)) _ ?_ ?_
      · rw [dget?_dinsert_ne d (fun hh => hk hh.symm) v1]
        exact hd
      · rcases hm with hm | hm
        · simp only [List.map_cons, List.mem_cons] at hm
          rcases hm with hm | hm
          · exact absurd hm.symm hk
          · exact Or.inl hm
        · exact Or.inr (dmem_dinsert_mono _ _ hm)

end SyncI18n

/-! ### Lemmas about the emitted entry sequence -/

namespace SyncI18n

theorem writeEntries_map_fst (m : Dict) (ord : List Key) :
    (writeEntries m ord).map Prod.fst = ord.filter (fun k => dmem m k) := by
  induction ord with
  | nil => rfl
  | cons k rest ih =>
    rw [writeEntries]
    rcases h : dmem m k with _ | _
    · rw [if_neg (by simp [h]), List.filter_cons_of_neg (by simp [h])]
      exact ih
    · rw [if_pos rfl, List.map_cons, List.filter_cons_of_pos h, ih]

theorem mem_writeEntries_iff {m : Dict} {ord : List Key} {k : Key} {v : Val} :
    (k, v) ∈ writeEntries m ord ↔ k ∈ ord ∧ dmem m k = true ∧ v = dgetD m k := by
  induction ord with
  | nil => simp [writeEntries]
  | cons a rest ih =>
    rw [writeEntries]
    rcases h : dmem m a with _ | _
    · rw [if_neg (by simp [h]), ih]
      constructor
      · rintro ⟨h1, h2, h3⟩
        exact ⟨List.mem_cons_of_mem _ h1, h2, h3⟩
      · rintro ⟨h1, h2, h3⟩
        rcases List.mem_cons.mp h1 with h1 | h1
        · subst h1; rw [h] at h2; simp at h2
        · exact ⟨h1, h2, h3⟩
    · rw [if_pos rfl, List.mem_cons, ih]
      constructor
      · rintro (h1 | ⟨h1, h2, h3⟩)
        · simp only [Prod.mk.injEq] at h1
          rcases h1 with ⟨hk, hv⟩
          subst hk
          exact ⟨List.mem_cons_self _ _, h, hv⟩
        · exact ⟨List.mem_cons_of_mem _ h1, h2, h3⟩
      · rintro ⟨h1, h2, h3⟩
        by_cases hk : k = a
        · subst hk
          exact Or.inl (by rw [h3])
        · rcases List.mem_cons.mp h1 with h1 | h1
          · exact absurd h1 hk
          · exact Or.inr ⟨h1, h2, h3⟩

theorem writeEntries_congr {m₁ m₂ : Dict} {ord : List Key}
    (h : ∀ k ∈ ord, dmem m₁ k = dmem m₂ k ∧ dgetD m₁ k = dgetD m₂ k) :
    writeEntries m₁ ord = writeEntries m₂ ord := by
  induction ord with
  | nil => rfl
  | cons a rest ih =>
    have ha := h a (List.mem_cons_self _ _)
    rw [writeEntries, writeEntries, ← ha.1, ha.2,
      ih (fun k hk => h k (List.mem_cons_of_mem _ hk))]

theorem dmem_dictOf_writeEntries {m : Dict} {ord : List Key} {k : Key} :
    dmem (dictOf (writeEntries m ord)) k = true ↔ k ∈ ord ∧ dmem m k = true := by
  rw [dmem_dictOf, writeEntries_map_fst, List.mem_filter]

theorem writeEntries_idem (m : Dict) (ord : List Key) :
    writeEntries (dictOf (writeEntries m ord)) ord = writeEntries m ord := by
  apply writeEntries_congr
  intro k hk
  have hmem : dmem (dictOf (writeEntries m ord)) k = dmem m k := by
    rcases h : dmem m k with _ | _
    · rw [← Bool.not_eq_true]
      intro hc
      exact absurd (dmem_dictOf_writeEntries.mp hc).2 (by simp [h])
    · exact dmem_dictOf_writeEntries.mpr ⟨hk, h⟩
  refine ⟨hmem, ?_⟩
  rcases h : dmem m k with _ | _
  · rw [h] at hmem
    rw [dgetD, dgetD, dget?_eq_none_of_dmem_eq_false hmem, dget?_eq_none_of_dmem_eq_false h]
  · have hv : dget? (dictOf (writeEntries m ord)) k = some (dgetD m k) := by
      apply dget?_foldl_dinsert_const
      · intro v hv
        exact (mem_writeEntries_iff.mp hv).2.2
      · exact Or.inl (dget?_eq_none_of_dmem_eq_false rfl)
      · rw [writeEntries_map_fst]
        exact Or.inl (List.mem_filter.mpr ⟨hk, h⟩)
    rw [dgetD, hv]
    rfl

end SyncI18n

/-! ### Lemmas about the merge loop -/

namespace SyncI18n

theorem dmem_mergeTranslations_mono {tk : Dict} {ts : List (Key × Val)} :
    ∀ {all : Dict} {k : Key}, dmem all k = true →
      dmem (mergeTranslations tk all ts) k = true := by
  induction ts with
  | nil => intro all k h; exact h
  | cons p rest ih =>
    intro all k h
    rcases p with ⟨k1, v1⟩
    rw [mergeTranslations]
    rcases h1 : dmem all k1 with _ | _
    · rw [if_neg (by simp [h1])]
      rcases h2 : dmem tk k1 with _ | _
      · rw [if_pos (by simp [h2])]
        exact ih h
      · rw [if_neg (by simp [h2])]
        exact ih (dmem_dinsert_mono _ _ h)
    · rw [if_pos rfl]
      exact ih h

theorem dget?_mergeTranslations_not_mem {tk : Dict} {ts : List (Key × Val)} :
    ∀ {all : Dict} {k : Key}, k ∉ ts.map Prod.fst →
      dget? (mergeTranslations tk all ts) k = dget? all k := by
  induction ts with
  | nil => intro all k _; rfl
  | cons p rest ih =>
    intro all k h
    rcases p with ⟨k1, v1⟩
    simp only [List.map_cons, List.mem_cons, not_or] at h
    rw [mergeTranslations]
    rcases h1 : dmem all k1 with _ | _
    · rw [if_neg (by simp [h1])]
      rcases h2 : dmem tk k1 with _ | _
      · rw [if_pos (by simp [h2])]
        exact ih h.2
      · rw [if_neg (by simp [h2])]
        rw [ih h.2, dget?_dinsert_ne _ h.1 v1]
    · rw [if_pos rfl]
      exact ih h.2

theorem dmem_mergeTranslations_not_mem {tk : Dict} {ts : List (Key × Val)}
    {all : Dict} {k : Key} (h : k ∉ ts.map Prod.fst) :
    dmem (mergeTranslations tk all ts) k = dmem all k := by
  rcases hm : dmem all k with _ | _
  · rw [← Bool.not_eq_true]
    intro hc
    have := dget?_isSome_of_dmem hc
    rw [dget?_mergeTranslations_not_mem h, dget?_eq_none_of_dmem_eq_false hm] at this
    simp at this
  · exact dmem_mergeTranslations_mono hm

theorem dget?_mergeTranslations_not_tk {tk : Dict} {ts : List (Key × Val)} :
    ∀ {all : Dict} {k : Key}, dmem tk k = false →
      dget? (mergeTranslations tk all ts) k = dget? all k := by
  induction ts with
  | nil => intro all k _; rfl
  | cons p rest ih =>
    intro all k h
    rcases p with ⟨k1, v1⟩
    rw [mergeTranslations]
    rcases h1 : dmem all k1 with _ | _
    · rw [if_neg (by simp [h1])]
      rcases h2 : dmem tk k1 with _ | _
      · rw [if_pos (by simp [h2])]
        exact ih h
      · rw [if_neg (by simp [h2])]
        have hne : k ≠ k1 := by
          intro hc
          subst hc
          rw [h] at h2
          simp at h2
        rw [ih h, dget?_dinsert_ne _ hne v1]
    · rw [if_pos rfl]
      exact ih h

theorem dmem_mergeTranslations_not_tk {tk : Dict} {ts : List (Key × Val)}
    {all : Dict} {k : Key} (h : dmem tk k = false) :
    dmem (mergeTranslations tk all ts) k = dmem all k := by
  rcases hm : dmem all k with _ | _
  · rw [← Bool.not_eq_true]
    intro hc
    have := dget?_isSome_of_dmem hc
    rw [dget?_mergeTranslations_not_tk h, dget?_eq_none_of_dmem_eq_false hm] at this
    simp at this
  · exact dmem_mergeTranslations_mono hm

theorem dget?_mergeTranslations_fresh {tk : Dict} {ts : List (Key × Val)} :
    ∀ {all : Dict} {k : Key} {v : Val}, (ts.map Prod.fst).Nodup →
      dmem all k = false → dmem tk k = true → (k, v) ∈ ts →
      dget? (mergeTranslations tk all ts) k = some v := by
  induction ts with
  | nil => intro all k v _ _ _ h; simp at h
  | cons p rest ih =>
    intro all k v hnd hm htk hts
    rcases p with ⟨k1, v1⟩
    simp only [List.map_cons, List.nodup_cons] at hnd
    rw [mergeTranslations]
    by_cases hk : k1 = k
    · subst hk
      have hv : v1 = v := by
        rcases List.mem_cons.mp hts with h | h
        · simp only [Prod.mk.injEq] at h
          exact h.2.symm
        · exact absurd (List.mem_map.mpr ⟨_, h, rfl⟩) hnd.1
      subst hv
      rw [if_neg (by simp [hm]), if_neg (by simp [htk])]
      have hnotin : k1 ∉ rest.map Prod.fst := hnd.1
      rw [dget?_mergeTranslations_not_mem hnotin, dget?_dinsert_self]
    · have hts1 : (k, v) ∈ rest := by
        rcases List.mem_cons.mp hts with h | h
        · simp only [Prod.mk.injEq] at h
          exact absurd h.1.symm hk
        · exact h
      rcases h1 : dmem all k1 with _ | _
      · rw [if_neg (by simp [h1])]
        rcases h2 : dmem tk k1 with _ | _
        · rw [if_pos (by simp [h2])]
          exact ih hnd.2 hm htk hts1
        · rw [if_neg (by simp [h2])]
          refine ih hnd.2 ?_ htk hts1
          rw [dmem_dinsert_ne _ (fun hh => hk hh.symm) v1]
          exact hm
      · rw [if_pos rfl]
        exact ih hnd.2 hm htk hts1

theorem dmem_mergeTranslations_solicited {tk : Dict} {ts : List (Key × Val)} :
    ∀ {all : Dict} {k : Key}, dmem tk k = true → k ∈ ts.map Prod.fst →
      dmem (mergeTranslations tk all ts) k = true := by
  induction ts with
  | nil => intro all k _ h; simp at h
  | cons p rest ih =>
    intro all k htk hts
    rcases p with ⟨k1, v1⟩
    rw [mergeTranslations]
    simp only [List.map_cons, List.mem_cons] at hts
    rcases h1 : dmem all k1 with _ | _
    · rw [if_neg (by simp [h1])]
      rcases h2 : dmem tk k1 with _ | _
      · rw [if_pos (by simp [h2])]
        rcases hts with hts | hts
        · subst hts; rw [htk] at h2; simp at h2
        · exact ih htk hts
      · rw [if_neg (by simp [h2])]
        rcases hts with hts | hts
        · subst hts
          exact dmem_mergeTranslations_mono (dmem_dinsert_self _ _ _)
        · exact ih htk hts
    · rw [if_pos rfl]
      rcases hts with hts | hts
      · subst hts
        exact dmem_mergeTranslations_mono h1
      · exact ih htk hts

end SyncI18n

/-! ### Lemmas about batch slicing -/

namespace SyncI18n

theorem numBatches_zero {bs : Nat} (hbs : 1 ≤ bs) : numBatches 0 bs = 0 := by
  rw [numBatches]
  exact Nat.div_eq_of_lt (by omega)

theorem batchesOf_nil {bs : Nat} (hbs : 1 ≤ bs) : batchesOf [] bs = [] := by
  rw [batchesOf, List.length_nil, numBatches_zero hbs, List.range_zero, List.map_nil]

theorem numBatches_succ {len bs : Nat} (hbs : 1 ≤ bs) (hlen : 1 ≤ len) :
    numBatches len bs = numBatches (len - bs) bs + 1 := by
  rw [numBatches, numBatches]
  have h1 : len + bs - 1 = (len - 1) + bs := by omega
  rw [h1, Nat.add_div_right _ (by omega)]
  congr 1
  by_cases h : bs ≤ len
  · congr 1
    omega
  · have h2 : len - bs = 0 := by omega
    rw [h2]
    rw [Nat.div_eq_of_lt (by omega), Nat.div_eq_of_lt (by omega)]

theorem batchesOf_cons {keys : List Key} {bs : Nat} (hbs : 1 ≤ bs) (hk : keys ≠ []) :
    batchesOf keys bs = keys.take bs :: batchesOf (keys.drop bs) bs := by
  have hlen : 1 ≤ keys.length := by
    rcases keys with _ | ⟨a, rest⟩
    · exact absurd rfl hk
    · simp
  rw [batchesOf, numBatches_succ hbs hlen, List.range_succ_eq_map, List.map_cons,
    List.map_map]
  congr 1
  · rw [batchSlice, Nat.zero_mul, List.drop_zero]
  · rw [batchesOf, List.length_drop]
    apply List.map_congr_left
    intro i _
    simp only [Function.comp_apply, batchSlice, List.drop_drop]
    rw [Nat.succ_mul, Nat.add_comm (i * bs) bs]

theorem flatten_batchesOf {bs : Nat} (hbs : 1 ≤ bs) (keys : List Key) :
    (batchesOf keys bs).flatten = keys := by
  suffices H : ∀ n, ∀ keys : List Key, keys.length ≤ n → (batchesOf keys bs).flatten = keys by
    exact H keys.length keys le_rfl
  intro n
  induction n with
  | zero =>
    intro keys hlen
    have h0 : keys = [] := List.eq_nil_of_length_eq_zero (by omega)
    subst h0
    rw [batchesOf_nil hbs]
    rfl
  | succ n ih =>
    intro keys hlen
    by_cases hk : keys = []
    · subst hk
      rw [batchesOf_nil hbs]
      rfl
    · have hpos : 1 ≤ keys.length := List.length_pos.mpr hk
      rw [batchesOf_cons hbs hk, List.flatten_cons,
        ih (keys.drop bs) (by rw [List.length_drop]; omega)]
      exact List.take_append_drop bs keys

end SyncI18n

/-! ### Shape of the batch list -/

namespace SyncI18n

theorem batchesOf_mem_shape {bs : Nat} (hbs : 1 ≤ bs) :
    ∀ keys : List Key, ∀ b ∈ batchesOf keys bs, b ≠ [] ∧ b.length ≤ bs ∧ b.Sublist keys := by
  suffices H : ∀ n, ∀ keys : List Key, keys.length ≤ n →
      ∀ b ∈ batchesOf keys bs, b ≠ [] ∧ b.length ≤ bs ∧ b.Sublist keys by
    exact fun keys => H keys.length keys le_rfl
  intro n
  induction n with
  | zero =>
    intro keys hlen b hb
    have h0 : keys = [] := List.eq_nil_of_length_eq_zero (by omega)
    subst h0
    rw [batchesOf_nil hbs] at hb
    simp at hb
  | succ n ih =>
    intro keys hlen b hb
    by_cases hk : keys = []
    · subst hk
      rw [batchesOf_nil hbs] at hb
      simp at hb
    · have hpos : 1 ≤ keys.length := List.length_pos.mpr hk
      rw [batchesOf_cons hbs hk] at hb
      rcases List.mem_cons.mp hb with hb | hb
      · subst hb
        refine ⟨?_, ?_, List.take_sublist bs keys⟩
        · intro hc
          have := congrArg List.length hc
          rw [List.length_take] at this
          simp only [List.length_nil] at this
          omega
        · rw [List.length_take]
          omega
      · have hrec := ih (keys.drop bs) (by rw [List.length_drop]; omega) b hb
        exact ⟨hrec.1, hrec.2.1, hrec.2.2.trans (List.drop_sublist bs keys)⟩

theorem batchesOf_dropLast_full {bs : Nat} (hbs : 1 ≤ bs) :
    ∀ keys : List Key, ∀ b ∈ (batchesOf keys bs).dropLast, b.length = bs := by
  suffices H : ∀ n, ∀ keys : List Key, keys.length ≤ n →
      ∀ b ∈ (batchesOf keys bs).dropLast, b.length = bs by
    exact fun keys => H keys.length keys le_rfl
  intro n
  induction n with
  | zero =>
    intro keys hlen b hb
    have h0 : keys = [] := List.eq_nil_of_length_eq_zero (by omega)
    subst h0
    rw [batchesOf_nil hbs] at hb
    simp at hb
  | succ n ih =>
    intro keys hlen b hb
    by_cases hk : keys = []
    · subst hk
      rw [batchesOf_nil hbs] at hb
      simp at hb
    · have hpos : 1 ≤ keys.length := List.length_pos.mpr hk
      rw [batchesOf_cons hbs hk] at hb
      by_cases hrest : batchesOf (keys.drop bs) bs = []
      · rw [hrest] at hb
        simp at hb
      · rw [List.dropLast_cons_of_ne_nil hrest] at hb
        rcases List.mem_cons.mp hb with hb | hb
        · subst hb
          rw [List.length_take]
          have hdrop : keys.drop bs ≠ [] := by
            intro hc
            rw [hc, batchesOf_nil hbs] at hrest
            exact hrest rfl
          have : bs < keys.length := by
            by_contra hc
            rw [List.drop_eq_nil_of_le (by omega)] at hdrop
            exact hdrop rfl
          omega
        · exact ih (keys.drop bs) (by rw [List.length_drop]; omega) b hb

end SyncI18n

/-! ### The batch submission loop -/

namespace SyncI18n

theorem runBatchesGo_trace (p : Provider) (ln : String) (tk : Dict) :
    ∀ (bl : List (List Key)) (all : Dict) (reqs : List (List (Key × Val))),
      (runBatchesGo p ln tk bl (all, reqs)).2 = reqs ++ bl.map (reqOf tk) := by
  intro bl
  induction bl with
  | nil => intro all reqs; simp [runBatchesGo]
  | cons b rest ih =>
    intro all reqs
    rw [runBatchesGo]
    rcases hp : p (reqOf tk b) ln with _ | ts
    · rw [ih]
      simp
    · rw [ih]
      simp

theorem runBatchesGo_fst_keep (p : Provider) (ln : String) (tk : Dict) :
    ∀ (bl : List (List Key)) (all : Dict) (reqs reqs2 : List (List (Key × Val))),
      (runBatchesGo p ln tk bl (all, reqs)).1 = (runBatchesGo p ln tk bl (all, reqs2)).1 := by
  intro bl
  induction bl with
  | nil => intro all reqs reqs2; rfl
  | cons b rest ih =>
    intro all reqs reqs2
    rw [runBatchesGo, runBatchesGo]
    rcases hp : p (reqOf tk b) ln with _ | ts
    · exact ih _ _ _
    · exact ih _ _ _

theorem map_fst_reqOf (tk : Dict) (b : List Key) :
    (reqOf tk b).map Prod.fst = b := by
  rw [reqOf, List.map_map]
  exact List.map_id' b

theorem dmem_runBatchesGo_mono (p : Provider) (ln : String) (tk : Dict) :
    ∀ (bl : List (List Key)) (all : Dict) (reqs : List (List (Key × Val))) (k : Key),
      dmem all k = true → dmem (runBatchesGo p ln tk bl (all, reqs)).1 k = true := by
  intro bl
  induction bl with
  | nil => intro all reqs k h; exact h
  | cons b rest ih =>
    intro all reqs k h
    rw [runBatchesGo]
    rcases hp : p (reqOf tk b) ln with _ | ts
    · exact ih _ _ _ h
    · exact ih _ _ _ (dmem_mergeTranslations_mono h)

theorem dmem_runBatchesGo_cover (p : Provider) (ln : String) (tk : Dict)
    (hp : ∀ req lang, ∃ ts, p req lang = some ts ∧ ts.map Prod.fst = req.map Prod.fst) :
    ∀ (bl : List (List Key)) (all : Dict) (reqs : List (List (Key × Val))) (k : Key),
      (∀ b ∈ bl, ∀ k1 ∈ b, dmem tk k1 = true) →
      ((∃ b ∈ bl, k ∈ b) ∨ dmem all k = true) →
      dmem (runBatchesGo p ln tk bl (all, reqs)).1 k = true := by
  intro bl
  induction bl with
  | nil =>
    intro all reqs k _ hm
    rcases hm with hm | hm
    · simp at hm
    · exact hm
  | cons b rest ih =>
    intro all reqs k hsub hm
    rw [runBatchesGo]
    rcases hps : p (reqOf tk b) ln with _ | ts
    · rcases hp (reqOf tk b) ln with ⟨ts, hts, _⟩
      rw [hps] at hts
      exact absurd hts (by simp)
    · rcases hp (reqOf tk b) ln with ⟨ts2, hts2, hkeys⟩
      rw [hps] at hts2
      have hts : ts = ts2 := by simpa using hts2
      subst hts
      rw [map_fst_reqOf] at hkeys
      refine ih _ _ _ (fun b1 hb1 => hsub b1 (List.mem_cons_of_mem _ hb1)) ?_
      rcases hm with ⟨b1, hb1, hkb⟩ | hm
      · rcases List.mem_cons.mp hb1 with hb1 | hb1
        · subst hb1
          refine Or.inr (dmem_mergeTranslations_solicited
            (hsub b1 (List.mem_cons_self _ _) k hkb) ?_)
          rw [hkeys]
          exact hkb
        · exact Or.inl ⟨b1, hb1, hkb⟩
      · exact Or.inr (dmem_mergeTranslations_mono hm)

end SyncI18n

/-! ### Lemmas about the classification loop -/

namespace SyncI18n

theorem classify_not_mem_fst (base : Dict) :
    ∀ {miss : List Key} {acc : Dict × Dict} {k : Key}, k ∉ miss →
      dget? (classifyMissing base miss acc).1 k = dget? acc.1 k := by
  intro miss
  induction miss with
  | nil => intro acc k _; rfl
  | cons k0 rest ih =>
    intro acc k hk
    simp only [List.mem_cons, not_or] at hk
    rcases acc with ⟨allRes, toTr⟩
    rw [classifyMissing]
    rcases h0 : isNoTranslate k0 with _ | _
    · rw [if_neg (by simp [h0])]
      exact ih hk.2
    · rw [if_pos rfl]
      rw [ih hk.2]
      exact dget?_dinsert_ne _ hk.1 _

theorem classify_not_mem_snd (base : Dict) :
    ∀ {miss : List Key} {acc : Dict × Dict} {k : Key}, k ∉ miss →
      dget? (classifyMissing base miss acc).2 k = dget? acc.2 k := by
  intro miss
  induction miss with
  | nil => intro acc k _; rfl
  | cons k0 rest ih =>
    intro acc k hk
    simp only [List.mem_cons, not_or] at hk
    rcases acc with ⟨allRes, toTr⟩
    rw [classifyMissing]
    rcases h0 : isNoTranslate k0 with _ | _
    · rw [if_neg (by simp [h0])]
      rw [ih hk.2]
      exact dget?_dinsert_ne _ hk.1 _
    · rw [if_pos rfl]
      exact ih hk.2

theorem classify_dmem_not_mem_snd (base : Dict) {miss : List Key} {acc : Dict × Dict}
    {k : Key} (hk : k ∉ miss) :
    dmem (classifyMissing base miss acc).2 k = dmem acc.2 k := by
  rcases h : dmem acc.2 k with _ | _
  · rw [← Bool.not_eq_true]
    intro hc
    have := dget?_isSome_of_dmem hc
    rw [classify_not_mem_snd base hk, dget?_eq_none_of_dmem_eq_false h] at this
    simp at this
  · have := dget?_isSome_of_dmem h
    rcases hs : dget? acc.2 k with _ | w
    · rw [hs] at this; simp at this
    · by_contra hc
      have h2 := dget?_eq_none_of_dmem_eq_false (Bool.of_not_eq_true hc)
      rw [classify_not_mem_snd base hk, hs] at h2
      simp at h2

theorem classify_copy_value (base : Dict) :
    ∀ {miss : List Key} {acc : Dict × Dict} {k : Key},
      k ∈ miss → isNoTranslate k = true →
      dget? (classifyMissing base miss acc).1 k = some (dgetD base k) := by
  intro miss
  induction miss with
  | nil => intro acc k hk _; simp at hk
  | cons k0 rest ih =>
    intro acc k hk hNT
    rcases acc with ⟨allRes, toTr⟩
    rw [classifyMissing]
    by_cases hkk : k ∈ rest
    · rcases h0 : isNoTranslate k0 with _ | _
      · rw [if_neg (by simp [h0])]
        exact ih hkk hNT
      · rw [if_pos rfl]
        exact ih hkk hNT
    · have hk0 : k0 = k := by
        rcases List.mem_cons.mp hk with h | h
        · exact h.symm
        · exact absurd h hkk
      subst hk0
      rw [if_pos (by simp [hNT])]
      rw [classify_not_mem_fst base hkk]
      exact dget?_dinsert_self _ _ _

theorem classify_NT_snd (base : Dict) :
    ∀ {miss : List Key} {acc : Dict × Dict} {k : Key},
      isNoTranslate k = true →
      dmem (classifyMissing base miss acc).2 k = dmem acc.2 k := by
  intro miss
  induction miss with
  | nil => intro acc k _; rfl
  | cons k0 rest ih =>
    intro acc k hNT
    rcases acc with ⟨allRes, toTr⟩
    rw [classifyMissing]
    rcases h0 : isNoTranslate k0 with _ | _
    · rw [if_neg (by simp [h0])]
      rw [ih hNT]
      have hne : k ≠ k0 := by
        intro hc
        subst hc
        rw [hNT] at h0
        simp at h0
      exact dmem_dinsert_ne _ hne _
    · rw [if_pos rfl]
      exact ih hNT

theorem classify_snd_subset (base : Dict) :
    ∀ {miss : List Key} {acc : Dict × Dict} {k : Key},
      dmem (classifyMissing base miss acc).2 k = true →
      dmem acc.2 k = true ∨ k ∈ miss := by
  intro miss
  induction miss with
  | nil => intro acc k h; exact Or.inl h
  | cons k0 rest ih =>
    intro acc k h
    rcases acc with ⟨allRes, toTr⟩
    rcases h0 : isNoTranslate k0 with _ | _
    · rw [classifyMissing, if_neg (by simp [h0])] at h
      rcases ih h with h | h
      · rcases dmem_dinsert_elim h with h | h
        · subst h; exact Or.inr (List.mem_cons_self _ _)
        · exact Or.inl h
      · exact Or.inr (List.mem_cons_of_mem _ h)
    · rw [classifyMissing, if_pos h0] at h
      rcases ih h with h | h
      · exact Or.inl h
      · exact Or.inr (List.mem_cons_of_mem _ h)

theorem classify_snd_disjoint_fst (base : Dict) :
    ∀ {miss : List Key} {acc : Dict × Dict},
      (hI1 : ∀ k1, dmem acc.2 k1 = true →
        dmem acc.1 k1 = false ∧ isNoTranslate k1 = false) →
      (hI3 : ∀ k1 ∈ miss, isNoTranslate k1 = false → dmem acc.1 k1 = false) →
      ∀ k, dmem (classifyMissing base miss acc).2 k = true →
        dmem (classifyMissing base miss acc).1 k = false ∧ isNoTranslate k = false := by
  intro miss
  induction miss with
  | nil => intro acc hI1 _ k hk; exact hI1 k hk
  | cons k0 rest ih =>
    intro acc hI1 hI3 k hk
    rcases acc with ⟨allRes, toTr⟩
    rcases h0 : isNoTranslate k0 with _ | _
    · rw [classifyMissing, if_neg (by simp [h0])] at hk ⊢
      refine ih ?_ ?_ k hk
      · intro k1 hk1
        rcases dmem_dinsert_elim hk1 with h | h
        · subst h
          exact ⟨hI3 k1 (List.mem_cons_self _ _) h0, h0⟩
        · exact hI1 k1 h
      · intro k1 hk1 hNT1
        exact hI3 k1 (List.mem_cons_of_mem _ hk1) hNT1
    · rw [classifyMissing, if_pos h0] at hk ⊢
      refine ih ?_ ?_ k hk
      · intro k1 hk1
        have hne : k1 ≠ k0 := by
          intro hc
          subst hc
          exact absurd (hI1 k1 hk1).2 (by simp [h0])
        rw [dmem_dinsert_ne _ hne _]
        exact hI1 k1 hk1
      · intro k1 hk1 hNT1
        have hne : k1 ≠ k0 := by
          intro hc
          subst hc
          rw [hNT1] at h0
          simp at h0
        rw [dmem_dinsert_ne _ hne _]
        exact hI3 k1 (List.mem_cons_of_mem _ hk1) hNT1

end SyncI18n

/-! ### Keys outside `to_translate` pass through the batch loop untouched -/

namespace SyncI18n

theorem dget?_runBatchesGo_not_tk (p : Provider) (ln : String) (tk : Dict) :
    ∀ (bl : List (List Key)) (all : Dict) (reqs : List (List (Key × Val))) (k : Key),
      dmem tk k = false →
      dget? (runBatchesGo p ln tk bl (all, reqs)).1 k = dget? all k := by
  intro bl
  induction bl with
  | nil => intro all reqs k _; rfl
  | cons b rest ih =>
    intro all reqs k h
    rw [runBatchesGo]
    rcases hp : p (reqOf tk b) ln with _ | ts
    · exact ih _ _ _ h
    · rw [ih _ _ _ h]
      exact dget?_mergeTranslations_not_tk h

theorem dmem_runBatchesGo_not_tk (p : Provider) (ln : String) (tk : Dict)
    (bl : List (List Key)) (all : Dict) (reqs : List (List (Key × Val))) (k : Key)
    (h : dmem tk k = false) :
    dmem (runBatchesGo p ln tk bl (all, reqs)).1 k = dmem all k := by
  rcases hm : dmem all k with _ | _
  · rw [← Bool.not_eq_true]
    intro hc
    have := dget?_isSome_of_dmem hc
    rw [dget?_runBatchesGo_not_tk p ln tk bl all reqs k h,
      dget?_eq_none_of_dmem_eq_false hm] at this
    simp at this
  · exact dmem_runBatchesGo_mono p ln tk bl all reqs k hm

theorem runBatchesGo_isolation (p : Provider) (ln : String) (tk : Dict) :
    ∀ (bl : List (List Key)) (all : Dict) (reqs : List (List (Key × Val))),
      (∀ b ∈ bl, ∀ k ∈ b, dmem tk k = true ∧ dmem all k = false) →
      (∀ b ∈ bl, b.Nodup) →
      bl.Pairwise List.Disjoint →
      (∀ b ∈ bl, ∀ ts, p (reqOf tk b) ln = some ts → ts.map Prod.fst = b) →
      (∀ k, (∀ b ∈ bl, k ∉ b) →
        dget? (runBatchesGo p ln tk bl (all, reqs)).1 k = dget? all k)
      ∧ (∀ b ∈ bl, ∀ k ∈ b,
          (p (reqOf tk b) ln = none →
            dmem (runBatchesGo p ln tk bl (all, reqs)).1 k = false)
        ∧ (∀ ts v, p (reqOf tk b) ln = some ts → (k, v) ∈ ts →
            dget? (runBatchesGo p ln tk bl (all, reqs)).1 k = some v)) := by
  intro bl
  induction bl with
  | nil =>
    intro all reqs _ _ _ _
    refine ⟨fun k _ => rfl, fun b hb => ?_⟩
    simp at hb
  | cons b rest ih =>
    intro all reqs hfresh hnd hdisj hr
    have hdisj1 : ∀ b1 ∈ rest, b.Disjoint b1 :=
      (List.pairwise_cons.mp hdisj).1
    have hdisj2 : rest.Pairwise List.Disjoint := (List.pairwise_cons.mp hdisj).2
    rw [runBatchesGo]
    rcases hps : p (reqOf tk b) ln with _ | ts
    · have hfresh1 : ∀ b1 ∈ rest, ∀ k ∈ b1, dmem tk k = true ∧ dmem all k = false :=
        fun b1 hb1 => hfresh b1 (List.mem_cons_of_mem _ hb1)
      have hrec := ih all (reqs ++ [reqOf tk b]) hfresh1
        (fun b1 hb1 => hnd b1 (List.mem_cons_of_mem _ hb1)) hdisj2
        (fun b1 hb1 => hr b1 (List.mem_cons_of_mem _ hb1))
      refine ⟨?_, ?_⟩
      · intro k hk
        exact hrec.1 k (fun b1 hb1 => hk b1 (List.mem_cons_of_mem _ hb1))
      · intro b1 hb1 k hk
        rcases List.mem_cons.mp hb1 with hb1 | hb1
        · subst hb1
          constructor
          · intro _
            have hout : ∀ b2 ∈ rest, k ∉ b2 :=
              fun b2 hb2 hkb2 => hdisj1 b2 hb2 hk hkb2
            have h1 := hrec.1 k hout
            rw [dget?_eq_none_of_dmem_eq_false
              (hfresh b1 (List.mem_cons_self _ _) k hk).2] at h1
            exact dmem_eq_false_of_dget?_eq_none h1
          · intro ts v hts _
            rw [hps] at hts
            exact absurd hts (by simp)
        · exact hrec.2 b1 hb1 k hk
    · have hkeys : ts.map Prod.fst = b := hr b (List.mem_cons_self _ _) ts hps
      have hfresh1 : ∀ b1 ∈ rest, ∀ k ∈ b1,
          dmem tk k = true ∧ dmem (mergeTranslations tk all ts) k = false := by
        intro b1 hb1 k hk
        refine ⟨(hfresh b1 (List.mem_cons_of_mem _ hb1) k hk).1, ?_⟩
        rw [dmem_mergeTranslations_not_mem (by
          rw [hkeys]
          exact fun hkb => hdisj1 b1 hb1 hkb hk)]
        exact (hfresh b1 (List.mem_cons_of_mem _ hb1) k hk).2
      have hrec := ih (mergeTranslations tk all ts) (reqs ++ [reqOf tk b]) hfresh1
        (fun b1 hb1 => hnd b1 (List.mem_cons_of_mem _ hb1)) hdisj2
        (fun b1 hb1 => hr b1 (List.mem_cons_of_mem _ hb1))
      refine ⟨?_, ?_⟩
      · intro k hk
        rw [hrec.1 k (fun b1 hb1 => hk b1 (List.mem_cons_of_mem _ hb1))]
        exact dget?_mergeTranslations_not_mem (by
          rw [hkeys]
          exact hk b (List.mem_cons_self _ _))
      · intro b1 hb1 k hk
        rcases List.mem_cons.mp hb1 with hb1 | hb1
        · subst hb1
          constructor
          · intro hnone
            rw [hps] at hnone
            exact absurd hnone (by simp)
          · intro ts2 v hts2 hv
            rw [hps] at hts2
            have hts : ts = ts2 := by simpa using hts2
            subst hts
            have hout : ∀ b2 ∈ rest, k ∉ b2 :=
              fun b2 hb2 hkb2 => hdisj1 b2 hb2 hk hkb2
            rw [hrec.1 k hout]
            refine dget?_mergeTranslations_fresh ?_ ?_ ?_ hv
            · rw [hkeys]
              exact hnd b1 (List.mem_cons_self _ _)
            · exact (hfresh b1 (List.mem_cons_self _ _) k hk).2
            · exact (hfresh b1 (List.mem_cons_self _ _) k hk).1
        · exact hrec.2 b1 hb1 k hk

end SyncI18n

/-! ### Bridge lemmas at the per-file synchronization level -/

namespace SyncI18n

theorem dmem_of_dget?_eq_some {d : Dict} {k : Key} {v : Val} (h : dget? d k = some v) :
    dmem d k = true := by
  by_contra hc
  have := dget?_eq_none_of_dmem_eq_false (Bool.of_not_eq_true hc)
  rw [h] at this
  simp at this

theorem classify_fst_mono (base : Dict) :
    ∀ {miss : List Key} {acc : Dict × Dict} {k : Key}, dmem acc.1 k = true →
      dmem (classifyMissing base miss acc).1 k = true := by
  intro miss
  induction miss with
  | nil => intro acc k h; exact h
  | cons k0 rest ih =>
    intro acc k h
    rcases acc with ⟨allRes, toTr⟩
    rcases h0 : isNoTranslate k0 with _ | _
    · rw [classifyMissing, if_neg (by simp [h0])]
      exact ih h
    · rw [classifyMissing, if_pos h0]
      exact ih (dmem_dinsert_mono _ _ h)

theorem classify_snd_mono (base : Dict) :
    ∀ {miss : List Key} {acc : Dict × Dict} {k : Key}, dmem acc.2 k = true →
      dmem (classifyMissing base miss acc).2 k = true := by
  intro miss
  induction miss with
  | nil => intro acc k h; exact h
  | cons k0 rest ih =>
    intro acc k h
    rcases acc with ⟨allRes, toTr⟩
    rcases h0 : isNoTranslate k0 with _ | _
    · rw [classifyMissing, if_neg (by simp [h0])]
      exact ih (dmem_dinsert_mono _ _ h)
    · rw [classifyMissing, if_pos h0]
      exact ih h

theorem classify_translate_mem (base : Dict) :
    ∀ {miss : List Key} {acc : Dict × Dict} {k : Key},
      k ∈ miss → isNoTranslate k = false →
      dmem (classifyMissing base miss acc).2 k = true := by
  intro miss
  induction miss with
  | nil => intro acc k hk _; simp at hk
  | cons k0 rest ih =>
    intro acc k hk hNT
    rcases acc with ⟨allRes, toTr⟩
    by_cases hkk : k ∈ rest
    · rcases h0 : isNoTranslate k0 with _ | _
      · rw [classifyMissing, if_neg (by simp [h0])]
        exact ih hkk hNT
      · rw [classifyMissing, if_pos h0]
        exact ih hkk hNT
    · have hk0 : k0 = k := by
        rcases List.mem_cons.mp hk with h | h
        · exact h.symm
        · exact absurd h hkk
      subst hk0
      rw [classifyMissing, if_neg (by simp [hNT])]
      exact classify_snd_mono base (dmem_dinsert_self _ _ _)

theorem not_mem_missingOf_of_dmem {base ex : Dict} {k : Key} (h : dmem ex k = true) :
    k ∉ missingOf base ex := by
  rw [missingOf]
  intro hc
  have := List.of_mem_filter hc
  simp [h] at this

theorem dmem_tkOf_of_not_missing {base ex : Dict} {k : Key}
    (h : k ∉ missingOf base ex) : dmem (tkOf base ex) k = false := by
  rw [tkOf, classify_dmem_not_mem_snd base h]
  rfl

theorem dmem_tkOf_NT {base ex : Dict} {k : Key} (h : isNoTranslate k = true) :
    dmem (tkOf base ex) k = false := by
  rw [tkOf, classify_NT_snd base h]
  rfl

theorem merged_preserves_existing (base : Dict) (p : Provider) (bs : Nat) (ln : String)
    (ex : Dict) (k : Key) (h : dmem ex k = true) :
    dget? (syncResources base p bs ln ex).1 k = dget? ex k := by
  rw [syncResources]
  by_cases hm : (missingOf base ex).isEmpty = true
  · rw [if_pos hm]
  · rw [if_neg hm]
    have hnotmiss : k ∉ missingOf base ex := not_mem_missingOf_of_dmem h
    have htk : dmem (tkOf base ex) k = false := dmem_tkOf_of_not_missing hnotmiss
    have hpre : dget? (preMergedOf base ex) k = dget? ex k :=
      classify_not_mem_fst base hnotmiss
    by_cases ht : (tkOf base ex).isEmpty = true
    · rw [if_pos ht]
      exact hpre
    · rw [if_neg ht, runBatches, dget?_runBatchesGo_not_tk _ _ _ _ _ _ _ htk]
      exact hpre

theorem merged_copy_value (base : Dict) (p : Provider) (bs : Nat) (ln : String)
    (ex : Dict) (k : Key) (hk : k ∈ missingOf base ex) (hNT : isNoTranslate k = true) :
    dget? (syncResources base p bs ln ex).1 k = some (dgetD base k) := by
  rw [syncResources]
  by_cases hm : (missingOf base ex).isEmpty = true
  · rw [List.isEmpty_iff] at hm
    rw [hm] at hk
    simp at hk
  · rw [if_neg hm]
    have htk : dmem (tkOf base ex) k = false := dmem_tkOf_NT hNT
    have hpre : dget? (preMergedOf base ex) k = some (dgetD base k) :=
      classify_copy_value base hk hNT
    by_cases ht : (tkOf base ex).isEmpty = true
    · rw [if_pos ht]
      exact hpre
    · rw [if_neg ht, runBatches, dget?_runBatchesGo_not_tk _ _ _ _ _ _ _ htk]
      exact hpre

theorem batchesOf_mem_sublist {keys : List Key} {bs : Nat} {b : List Key}
    (hb : b ∈ batchesOf keys bs) : b.Sublist keys := by
  rw [batchesOf] at hb
  rcases List.mem_map.mp hb with ⟨i, _, hi⟩
  subst hi
  exact (List.take_sublist _ _).trans (List.drop_sublist _ _)

theorem mem_requests_shape {base : Dict} {p : Provider} {bs : Nat} {ln : String}
    {ex : Dict} {req : List (Key × Val)} (hreq : req ∈ (syncResources base p bs ln ex).2) :
    ∃ b ∈ batchesOf (dkeys (tkOf base ex)) bs, req = reqOf (tkOf base ex) b := by
  rw [syncResources] at hreq
  by_cases hm : (missingOf base ex).isEmpty = true
  · rw [if_pos hm] at hreq
    simp at hreq
  · rw [if_neg hm] at hreq
    by_cases ht : (tkOf base ex).isEmpty = true
    · rw [if_pos ht] at hreq
      simp at hreq
    · rw [if_neg ht, runBatches, runBatchesGo_trace, List.nil_append] at hreq
      rcases List.mem_map.mp hreq with ⟨b, hb, hbeq⟩
      exact ⟨b, hb, hbeq.symm⟩

theorem not_in_requests {base : Dict} {p : Provider} {bs : Nat} {ln : String}
    {ex : Dict} {k : Key} (htk : dmem (tkOf base ex) k = false) :
    ∀ req ∈ (syncResources base p bs ln ex).2, k ∉ req.map Prod.fst := by
  intro req hreq hk
  rcases mem_requests_shape hreq with ⟨b, hb, hbeq⟩
  subst hbeq
  rw [map_fst_reqOf] at hk
  have hsub := batchesOf_mem_sublist hb
  have : k ∈ dkeys (tkOf base ex) := hsub.mem hk
  rw [dmem_eq_false_iff] at htk
  exact htk this

theorem merged_unsolicited (base : Dict) (p : Provider) (bs : Nat) (ln : String)
    (ex : Dict) (k : Key) (htk : dmem (tkOf base ex) k = false)
    (hpre : dmem (preMergedOf base ex) k = false) :
    dmem (syncResources base p bs ln ex).1 k = false := by
  rw [syncResources]
  by_cases hm : (missingOf base ex).isEmpty = true
  · rw [if_pos hm]
    rw [List.isEmpty_iff] at hm
    rw [preMergedOf, hm] at hpre
    exact hpre
  · rw [if_neg hm]
    by_cases ht : (tkOf base ex).isEmpty = true
    · rw [if_pos ht]
      exact hpre
    · rw [if_neg ht, runBatches, dmem_runBatchesGo_not_tk _ _ _ _ _ _ _ htk]
      exact hpre

theorem merged_covers_base (base : Dict) (p : Provider) (bs : Nat) (ln : String)
    (ex : Dict) (k : Key)
    (hp : ∀ req lang, ∃ ts, p req lang = some ts ∧ ts.map Prod.fst = req.map Prod.fst)
    (hbs : 1 ≤ bs) (hk : dmem base k = true) :
    dmem (syncResources base p bs ln ex).1 k = true := by
  rw [syncResources]
  by_cases hm : (missingOf base ex).isEmpty = true
  · rw [if_pos hm]
    rw [List.isEmpty_iff, missingOf, List.filter_eq_nil_iff] at hm
    have h1 := hm k (dmem_iff.mp hk)
    simp only [Bool.not_eq_true] at h1
    simpa using h1
  · rw [if_neg hm]
    by_cases hex : dmem ex k = true
    · have hpre : dmem (preMergedOf base ex) k = true := classify_fst_mono base hex
      by_cases ht : (tkOf base ex).isEmpty = true
      · rw [if_pos ht]
        exact hpre
      · rw [if_neg ht, runBatches]
        exact dmem_runBatchesGo_mono _ _ _ _ _ _ _ hpre
    · have hmiss : k ∈ missingOf base ex := by
        rw [missingOf, List.mem_filter]
        refine ⟨dmem_iff.mp hk, ?_⟩
        simp [Bool.of_not_eq_true hex]
      rcases hNT : isNoTranslate k with _ | _
      · have htk : dmem (tkOf base ex) k = true := classify_translate_mem base hmiss hNT
        by_cases ht : (tkOf base ex).isEmpty = true
        · rw [List.isEmpty_iff] at ht
          rw [ht] at htk
          simp [dmem] at htk
        · rw [if_neg ht, runBatches]
          refine dmem_runBatchesGo_cover p ln _ hp _ _ _ _ ?_ ?_
          · intro b hb k1 hk1
            exact dmem_iff.mpr ((batchesOf_mem_sublist hb).mem hk1)
          · refine Or.inl ?_
            have : k ∈ (batchesOf (dkeys (tkOf base ex)) bs).flatten := by
              rw [flatten_batchesOf hbs]
              exact dmem_iff.mp htk
            exact List.mem_flatten.mp this
      · have hpre : dmem (preMergedOf base ex) k = true :=
          dmem_of_dget?_eq_some (classify_copy_value base hmiss hNT)
        by_cases ht : (tkOf base ex).isEmpty = true
        · rw [if_pos ht]
          exact hpre
        · rw [if_neg ht, runBatches]
          exact dmem_runBatchesGo_mono _ _ _ _ _ _ _ hpre

end SyncI18n

/-! ### Further batch and classification facts -/

namespace SyncI18n

theorem batchesOf_nil0 (bs : Nat) : batchesOf [] bs = [] := by
  rcases bs with _ | bs
  · rfl
  · rw [batchesOf, List.length_nil, numBatches, Nat.div_eq_of_lt (by omega),
      List.range_zero, List.map_nil]

theorem tkOf_missing_nil {base ex : Dict} (h : missingOf base ex = []) :
    tkOf base ex = [] := by
  rw [tkOf, h]
  rfl

theorem classify_snd_nodup (base : Dict) :
    ∀ {miss : List Key} {acc : Dict × Dict}, (dkeys acc.2).Nodup →
      (dkeys (classifyMissing base miss acc).2).Nodup := by
  intro miss
  induction miss with
  | nil => intro acc h; exact h
  | cons k0 rest ih =>
    intro acc h
    rcases acc with ⟨allRes, toTr⟩
    rcases h0 : isNoTranslate k0 with _ | _
    · rw [classifyMissing, if_neg (by simp [h0])]
      exact ih (dkeys_dinsert_nodup h)
    · rw [classifyMissing, if_pos h0]
      exact ih h

theorem tk_keys_nodup (base ex : Dict) : (dkeys (tkOf base ex)).Nodup := by
  rw [tkOf]
  exact classify_snd_nodup base (by simp [dkeys])

theorem syncResources_trace (base : Dict) (p : Provider) (bs : Nat) (ln : String)
    (ex : Dict) :
    (syncResources base p bs ln ex).2
      = (batchesOf (dkeys (tkOf base ex)) bs).map (reqOf (tkOf base ex)) := by
  rw [syncResources]
  by_cases hm : (missingOf base ex).isEmpty = true
  · rw [if_pos hm]
    rw [List.isEmpty_iff] at hm
    rw [tkOf_missing_nil hm]
    rw [show dkeys [] = [] from rfl, batchesOf_nil0, List.map_nil]
  · rw [if_neg hm]
    by_cases ht : (tkOf base ex).isEmpty = true
    · rw [if_pos ht]
      rw [List.isEmpty_iff] at ht
      rw [ht, show dkeys [] = [] from rfl, batchesOf_nil0, List.map_nil]
    · rw [if_neg ht, runBatches, runBatchesGo_trace, List.nil_append]

theorem tk_disjoint_pre {base ex : Dict} {k : Key}
    (h : dmem (tkOf base ex) k = true) :
    dmem (preMergedOf base ex) k = false := by
  rw [tkOf] at h
  rw [preMergedOf]
  refine (classify_snd_disjoint_fst base ?_ ?_ k h).1
  · intro k1 hk1
    simp [dmem] at hk1
  · intro k1 hk1 _
    have := List.of_mem_filter hk1
    simpa using this

end SyncI18n

/-! ### Per-file and whole-run idempotence machinery -/

namespace SyncI18n

theorem dmem_dictOf_sub {l : List (Key × Val)} {k : Key}
    (h : dmem (dictOf l) k = true) : k ∈ l.map Prod.fst :=
  dmem_dictOf.mp h

theorem processFile_idem (baseOrdered : List (Key × Val)) (p : Provider) (bs : Nat)
    (lc : String) (f : DiskFile)
    (hp : ∀ req lang, ∃ ts, p req lang = some ts ∧ ts.map Prod.fst = req.map Prod.fst)
    (hbs : 1 ≤ bs) :
    (processFile (dictOf baseOrdered) (baseOrdered.map Prod.fst) p bs lc
      ((processFile (dictOf baseOrdered) (baseOrdered.map Prod.fst) p bs lc f).out)).out
    = (processFile (dictOf baseOrdered) (baseOrdered.map Prod.fst) p bs lc f).out := by
  rw [processFile, processFile, writeResx, writeResx]
  rw [show readComment (DiskFile.good
    (writeEntries (syncResources (dictOf baseOrdered) p bs
      ((readComment f).getD lc) (readDict f)).1 (baseOrdered.map Prod.fst))
    (readComment f)) = readComment f from rfl]
  rw [show readDict (DiskFile.good
    (writeEntries (syncResources (dictOf baseOrdered) p bs
      ((readComment f).getD lc) (readDict f)).1 (baseOrdered.map Prod.fst))
    (readComment f)) = dictOf (writeEntries (syncResources (dictOf baseOrdered) p bs
      ((readComment f).getD lc) (readDict f)).1 (baseOrdered.map Prod.fst)) from rfl]
  have hmiss2 : missingOf (dictOf baseOrdered)
      (dictOf (writeEntries (syncResources (dictOf baseOrdered) p bs
        ((readComment f).getD lc) (readDict f)).1 (baseOrdered.map Prod.fst))) = [] := by
    rw [missingOf, List.filter_eq_nil_iff]
    intro k hk
    simp only [Bool.not_eq_true, Bool.not_eq_eq_eq_not, Bool.not_true]
    have hkb : dmem (dictOf baseOrdered) k = true := dmem_iff.mpr hk
    refine Bool.not_eq_false _ ▸ ?_
    rw [dmem_dictOf_writeEntries]
    exact ⟨dmem_dictOf_sub hkb,
      merged_covers_base _ p bs _ _ k hp hbs hkb⟩
  rw [show syncResources (dictOf baseOrdered) p bs ((readComment f).getD lc)
      (dictOf (writeEntries (syncResources (dictOf baseOrdered) p bs
        ((readComment f).getD lc) (readDict f)).1 (baseOrdered.map Prod.fst)))
    = (dictOf (writeEntries (syncResources (dictOf baseOrdered) p bs
        ((readComment f).getD lc) (readDict f)).1 (baseOrdered.map Prod.fst)), [])
    from by rw [syncResources, if_pos (List.isEmpty_iff.mpr hmiss2)]]
  rw [writeEntries_idem]

end SyncI18n

/-! ### Whole-run lemmas -/

namespace SyncI18n

theorem runStep_fst (br : Dict) (bk : List Key) (p : Provider) (bs : Nat)
    (e : String × DiskFile) : (runStep br bk p bs e).1 = e.1 := by
  rcases hf : stringsFilter e.1 with _ | _
  · rw [runStep, if_neg (by simp [hf])]
  · rcases hc : langCodeOf e.1 with _ | lc
    · rw [runStep, if_pos hf, hc]
    · rw [runStep, if_pos hf, hc]

theorem runStep_keep_of_filter_false {e : String × DiskFile}
    (hf : stringsFilter e.1 = false) (br : Dict) (bk : List Key) (p : Provider)
    (bs : Nat) : runStep br bk p bs e = e := by
  rw [runStep, if_neg (by simp [hf])]

theorem runStep_keep_of_code_none {e : String × DiskFile}
    (hf : stringsFilter e.1 = true) (hc : langCodeOf e.1 = none) (br : Dict)
    (bk : List Key) (p : Provider) (bs : Nat) : runStep br bk p bs e = e := by
  rw [runStep, if_pos hf, hc]

theorem runStep_eq_of_code_some {e : String × DiskFile} {lc : String}
    (hf : stringsFilter e.1 = true) (hc : langCodeOf e.1 = some lc) (br : Dict)
    (bk : List Key) (p : Provider) (bs : Nat) :
    runStep br bk p bs e = (e.1, (processFile br bk p bs lc e.2).out) := by
  rw [runStep, if_pos hf, hc]

theorem stringsFilter_base : stringsFilter "Strings.resx" = true := by decide

theorem langCodeOf_base : langCodeOf "Strings.resx" = none := by decide

theorem runStep_base (br : Dict) (bk : List Key) (p : Provider) (bs : Nat)
    (f : DiskFile) : runStep br bk p bs ("Strings.resx", f) = ("Strings.resx", f) :=
  runStep_keep_of_code_none stringsFilter_base langCodeOf_base br bk p bs

theorem find?_map_fst_pres {g : (String × DiskFile) → (String × DiskFile)}
    (hg : ∀ e, (g e).1 = e.1) (name : String) :
    ∀ dir : List (String × DiskFile),
      (dir.map g).find? (fun q => q.1 == name)
        = (dir.find? (fun q => q.1 == name)).map g := by
  intro dir
  induction dir with
  | nil => rfl
  | cons e rest ih =>
    rw [List.map_cons]
    have hge : ((g e).1 == name) = (e.1 == name) := by rw [hg e]
    rcases hp : (e.1 == name) with _ | _
    · simp only [List.find?_cons, hge, hp]
      exact ih
    · simp only [List.find?_cons, hge, hp]
      rfl

theorem run_eq_none {dir : List (String × DiskFile)} {p : Provider} {bs : Nat}
    (h : dirFind dir "Strings.resx" = none) : run dir p bs = dir := by
  unfold run
  rw [h]

theorem run_eq_some {dir : List (String × DiskFile)} {p : Provider} {bs : Nat}
    {bf : DiskFile} (h : dirFind dir "Strings.resx" = some bf) :
    run dir p bs = dir.map
      (runStep (dictOf (readOrdered bf)) ((readOrdered bf).map Prod.fst) p bs) := by
  unfold run
  rw [h]

theorem dirFind_map_runStep {dir : List (String × DiskFile)} {bf : DiskFile}
    (br : Dict) (bk : List Key) (p : Provider) (bs : Nat)
    (h : dirFind dir "Strings.resx" = some bf) :
    dirFind (dir.map (runStep br bk p bs)) "Strings.resx" = some bf := by
  rw [dirFind] at h ⊢
  rw [find?_map_fst_pres (runStep_fst br bk p bs) "Strings.resx" dir]
  rcases hfind : dir.find? (fun q => q.1 == "Strings.resx") with _ | e
  · rw [hfind] at h
    simp at h
  · rw [hfind] at h
    have hname : e.1 = "Strings.resx" := by
      have := List.find?_some hfind
      simpa using this
    have hsnd : e.2 = bf := by simpa using h
    have he : e = ("Strings.resx", bf) := Prod.ext hname hsnd
    rw [hfind, he]
    simp [runStep_base]

theorem runStep_idem (baseOrdered : List (Key × Val)) (p : Provider) (bs : Nat)
    (hp : ∀ req lang, ∃ ts, p req lang = some ts ∧ ts.map Prod.fst = req.map Prod.fst)
    (hbs : 1 ≤ bs) (e : String × DiskFile) :
    runStep (dictOf baseOrdered) (baseOrdered.map Prod.fst) p bs
      (runStep (dictOf baseOrdered) (baseOrdered.map Prod.fst) p bs e)
    = runStep (dictOf baseOrdered) (baseOrdered.map Prod.fst) p bs e := by
  rcases hf : stringsFilter e.1 with _ | _
  · rw [runStep_keep_of_filter_false hf]
    exact runStep_keep_of_filter_false hf _ _ _ _
  · rcases hc : langCodeOf e.1 with _ | lc
    · rw [runStep_keep_of_code_none hf hc]
      exact runStep_keep_of_code_none hf hc _ _ _ _
    · rw [runStep_eq_of_code_some hf hc]
      rw [runStep_eq_of_code_some (e := (e.1, (processFile (dictOf baseOrdered)
        (baseOrdered.map Prod.fst) p bs lc e.2).out)) hf hc]
      rw [processFile_idem baseOrdered p bs lc e.2 hp hbs]

end SyncI18n

/-! ### Claim theorems -/

namespace SyncI18n

/-- C2 (code bug): the claim says a missing **or unparsable** base file aborts
the run before any localized file is processed.  The code only aborts when the
file is missing (second conjunct: the run leaves the directory untouched).
When `Strings.resx` exists but is XML-unparsable, `_read_resx_ordered` returns
an empty list, `run` continues with an empty base key set, and every localized
file is rewritten with zero data entries — its content is wiped (first
conjunct). -/
theorem c2_unparsable_base_wipes_localized_file :
    run [("Strings.resx", DiskFile.malformed none),
         ("Strings.es.resx", DiskFile.good [("A", "Hola")] (some "Spanish"))] noProvider 20
      = [("Strings.resx", DiskFile.malformed none),
         ("Strings.es.resx", DiskFile.good [] (some "Spanish"))]
    ∧ run [("Strings.es.resx", DiskFile.good [("A", "Hola")] (some "Spanish"))] noProvider 20
      = [("Strings.es.resx", DiskFile.good [("A", "Hola")] (some "Spanish"))] :=
  ⟨by decide, by decide⟩

/-- C4: the emitted entry sequence of every written localized file lists
exactly the base-order keys that are present in the merged mapping, in base
order; a merged key outside the base key list is silently omitted; and the
file written by `processFile` is exactly this projection of the merged
mapping. -/
theorem c4_output_order_is_base_projection
    (resources : Dict) (ord : List Key) (base : Dict) (bkeys : List Key)
    (p : Provider) (bs : Nat) (lc : String) (f : DiskFile) :
    (writeEntries resources ord).map Prod.fst = ord.filter (fun k => dmem resources k)
    ∧ (∀ k v, (k, v) ∈ writeEntries resources ord → k ∈ ord)
    ∧ (processFile base bkeys p bs lc f).out
        = DiskFile.good
            (writeEntries
              (syncResources base p bs ((readComment f).getD lc) (readDict f)).1 bkeys)
            (readComment f) := by
  refine ⟨writeEntries_map_fst resources ord, ?_, rfl⟩
  intro k v hkv
  exact (mem_writeEntries_iff.mp hkv).1

/-- Witness for C4 at a concrete input. -/
theorem c4_output_order_is_base_projection_witness :
    ("A" : Key) ∈ (["A", "B"] : List Key) :=
  (c4_output_order_is_base_projection [("A", "x")] ["A", "B"] [] [] noProvider 20 "es"
    (DiskFile.malformed none)).2.1 "A" "x" (by decide)

/-- C9 counterexample: the claim says every empty response is answered with
`None` rather than an escaping exception, but a completion with an empty
`choices` list raises an uncaught `IndexError` at `response.choices[0]`, and a
choice whose `message.content` is `None` raises an uncaught `AttributeError`
at `.strip()`. -/
theorem c9_counterexample :
    invokeAiTranslation (fun _ => none) (fun _ => none) (ChatOutcome.completed [])
      = Except.error PyExn.indexError
    ∧ invokeAiTranslation (fun _ => none) (fun _ => none) (ChatOutcome.completed [none])
      = Except.error PyExn.attributeError :=
  ⟨rfl, rfl⟩

/-- C9 (amended): on a transport error (`APIError`) the function returns
`None`; on a response whose first choice carries a content string that fails
JSON parsing after fence-stripping (including the empty string) it returns
`None`; but a response with no choices raises an uncaught `IndexError` and a
response whose first content is null raises an uncaught `AttributeError`. -/
theorem c9_failure_signaling (fe : String → Option String)
    (jl : String → Option JsonVal) (content : String) (rest : List (Option String)) :
    invokeAiTranslation fe jl ChatOutcome.apiError = Except.ok none
    ∧ (jl (cleanContent fe content) = none →
        invokeAiTranslation fe jl (ChatOutcome.completed (some content :: rest))
          = Except.ok none)
    ∧ invokeAiTranslation fe jl (ChatOutcome.completed []) = Except.error PyExn.indexError
    ∧ invokeAiTranslation fe jl (ChatOutcome.completed (none :: rest))
        = Except.error PyExn.attributeError := by
  refine ⟨rfl, ?_, rfl, rfl⟩
  intro h
  have h1 : invokeAiTranslation fe jl (ChatOutcome.completed (some content :: rest))
      = Except.ok (jl (cleanContent fe content)) := rfl
  rw [h1, h]

/-- Witness for C9's amended theorem at a concrete input. -/
theorem c9_failure_signaling_witness :
    invokeAiTranslation (fun _ => none) (fun _ => none)
      (ChatOutcome.completed [some "not json"]) = Except.ok none :=
  (c9_failure_signaling (fun _ => none) (fun _ => none) "not json" []).2.1 rfl

/-- C10: the base file `Strings.resx` passes the directory-listing filter
(starts with `Strings.`, ends with `.resx`) but fails the language-code
pattern (no nonempty segment between two dots), so `run` skips it: whatever
its content, the entry is carried to the output directory unchanged. -/
theorem c10_base_file_never_rewritten :
    stringsFilter "Strings.resx" = true
    ∧ langCodeOf "Strings.resx" = none
    ∧ ∀ (dir : List (String × DiskFile)) (p : Provider) (bs : Nat) (f : DiskFile),
        ("Strings.resx", f) ∈ dir → ("Strings.resx", f) ∈ run dir p bs := by
  refine ⟨stringsFilter_base, langCodeOf_base, ?_⟩
  intro dir p bs f hmem
  rcases hb : dirFind dir "Strings.resx" with _ | bf
  · rw [run_eq_none hb]
    exact hmem
  · rw [run_eq_some hb]
    exact List.mem_map.mpr ⟨("Strings.resx", f), hmem, runStep_base _ _ _ _ f⟩

/-- Witness for C10 at a concrete input. -/
theorem c10_base_file_never_rewritten_witness :
    ("Strings.resx", DiskFile.good [] none)
      ∈ run [("Strings.resx", DiskFile.good [] none)] noProvider 20 :=
  c10_base_file_never_rewritten.2.2 [("Strings.resx", DiskFile.good [] none)]
    noProvider 20 (DiskFile.good [] none) (by decide)

end SyncI18n

namespace SyncI18n

/-- C1 counterexample: the code checks a returned key against the whole
`to_translate` set, not against the keys of the batch that was requested.
With base keys `A`, `B`, batch size 1 and a provider that answers the request
for `A` with the pair `("B", "x")` (a key not in that batch), the pair is
accepted, and `B` appears in the rewritten output with the value from the
wrong batch's response — contradicting the claim that a key outside the
requested batch is discarded and never appears in the output. -/
theorem c1_counterexample :
    (processFile (dictOf [("A", "a"), ("B", "b")]) ["A", "B"] crossBatchProvider 1 "es"
        (DiskFile.good [] none)).requests = [[("A", "a")], [("B", "b")]]
    ∧ crossBatchProvider [("A", "a")] "es" = some [("B", "x")]
    ∧ ("B" : Key) ∉ (["A"] : List Key)
    ∧ (processFile (dictOf [("A", "a"), ("B", "b")]) ["A", "B"] crossBatchProvider 1 "es"
        (DiskFile.good [] none)).out = DiskFile.good [("B", "x")] none :=
  ⟨by decide, by decide, by decide, by decide⟩

/-- C1 (amended): a returned key is checked against the file's whole
`to_translate` set, not the single batch: a key belonging to a *different*
batch of the same run is accepted.  What the code guarantees is that a key
that is neither in `to_translate` nor already present in the pre-merge
mapping (existing entries plus verbatim copies) is discarded: it is absent
from the merged mapping and never appears in the rewritten output, whatever
the base key order. -/
theorem c1_unsolicited_keys_discarded (base : Dict) (p : Provider) (bs : Nat)
    (ln : String) (ex : Dict) (k : Key)
    (htk : dmem (tkOf base ex) k = false)
    (hpre : dmem (preMergedOf base ex) k = false) :
    dmem (syncResources base p bs ln ex).1 k = false
    ∧ ∀ (bkeys : List Key) (v : Val),
        (k, v) ∉ writeEntries (syncResources base p bs ln ex).1 bkeys := by
  have hm := merged_unsolicited base p bs ln ex k htk hpre
  refine ⟨hm, ?_⟩
  intro bkeys v hkv
  have hd := (mem_writeEntries_iff.mp hkv).2.1
  rw [hm] at hd
  exact Bool.false_ne_true hd

/-- Witness for C1's amended theorem at a concrete input. -/
theorem c1_unsolicited_keys_discarded_witness :
    ("Z", "q") ∉ writeEntries (syncResources [] noProvider 20 "es" []).1 ["Z"] :=
  (c1_unsolicited_keys_discarded [] noProvider 20 "es" [] "Z" (by decide) (by decide)).2
    ["Z"] "q"

/-- C3: a key read into the existing mapping of a localized file keeps its
value: the merged mapping after the run associates it with exactly the value
it had before (a provider result for it is discarded, never overwriting), and
every occurrence of the key in the rewritten file carries that original
value. -/
theorem c3_existing_values_never_overwritten (base : Dict) (bkeys : List Key)
    (p : Provider) (bs : Nat) (lc : String) (f : DiskFile) (k : Key)
    (h : dmem (readDict f) k = true) :
    dget? (syncResources base p bs ((readComment f).getD lc) (readDict f)).1 k
      = dget? (readDict f) k
    ∧ ∀ v, (k, v) ∈ readOrdered (processFile base bkeys p bs lc f).out →
        dget? (readDict f) k = some v := by
  have hpres := merged_preserves_existing base p bs ((readComment f).getD lc)
    (readDict f) k h
  refine ⟨hpres, ?_⟩
  intro v hkv
  have hkv2 : (k, v) ∈ writeEntries
      (syncResources base p bs ((readComment f).getD lc) (readDict f)).1 bkeys := hkv
  have hm := (mem_writeEntries_iff.mp hkv2).2
  rw [hm.2, dgetD, hpres]
  exact dget?_eq_some_dgetD_of_dmem h

/-- Witness for C3 at a concrete input. -/
theorem c3_existing_values_never_overwritten_witness :
    dget? (syncResources [] noProvider 20
        ((readComment (DiskFile.good [("A", "Hola")] none)).getD "es")
        (readDict (DiskFile.good [("A", "Hola")] none))).1 "A"
      = dget? (readDict (DiskFile.good [("A", "Hola")] none)) "A" :=
  (c3_existing_values_never_overwritten [] [] noProvider 20 "es"
    (DiskFile.good [("A", "Hola")] none) "A" (by decide)).1

/-- C5: a missing key matching a no-translate pattern is copied verbatim: the
rewritten file contains it with exactly the base file's value, every
occurrence of it in the output carries that value, and no request submitted
to the provider during the file's run ever contains the key. -/
theorem c5_no_translate_copied_never_requested (baseOrdered : List (Key × Val))
    (p : Provider) (bs : Nat) (lc : String) (f : DiskFile) (k : Key)
    (hk : k ∈ missingOf (dictOf baseOrdered) (readDict f))
    (hNT : isNoTranslate k = true) :
    ((k, dgetD (dictOf baseOrdered) k) ∈ readOrdered
        (processFile (dictOf baseOrdered) (baseOrdered.map Prod.fst) p bs lc f).out)
    ∧ (∀ v, (k, v) ∈ readOrdered
        (processFile (dictOf baseOrdered) (baseOrdered.map Prod.fst) p bs lc f).out →
          v = dgetD (dictOf baseOrdered) k)
    ∧ (∀ req ∈ (processFile (dictOf baseOrdered) (baseOrdered.map Prod.fst) p bs lc f).requests,
        k ∉ req.map Prod.fst) := by
  have hval := merged_copy_value (dictOf baseOrdered) p bs ((readComment f).getD lc)
    (readDict f) k hk hNT
  have hdm := dmem_of_dget?_eq_some hval
  have hkbase : k ∈ dkeys (dictOf baseOrdered) := by
    rw [missingOf] at hk
    exact (List.mem_filter.mp hk).1
  have hkb : k ∈ baseOrdered.map Prod.fst := dmem_dictOf_sub (dmem_iff.mpr hkbase)
  have hvv : dgetD (syncResources (dictOf baseOrdered) p bs ((readComment f).getD lc)
      (readDict f)).1 k = dgetD (dictOf baseOrdered) k := by
    rw [dgetD, hval]
    rfl
  refine ⟨?_, ?_, ?_⟩
  · exact mem_writeEntries_iff.mpr ⟨hkb, hdm, hvv.symm⟩
  · intro v hv
    have := (mem_writeEntries_iff.mp hv).2.2
    rw [this, hvv]
  · intro req hreq
    exact not_in_requests (dmem_tkOf_NT hNT) req hreq

/-- Witness for C5 at a concrete input. -/
theorem c5_no_translate_copied_never_requested_witness :
    ("SettingsSelectionItem_Common_Language_zh",
        dgetD (dictOf [("SettingsSelectionItem_Common_Language_zh", "zh-CN")])
          "SettingsSelectionItem_Common_Language_zh")
      ∈ readOrdered (processFile
          (dictOf [("SettingsSelectionItem_Common_Language_zh", "zh-CN")])
          ([("SettingsSelectionItem_Common_Language_zh", ("zh-CN" : Val))].map Prod.fst)
          noProvider 20 "es" (DiskFile.good [] none)).out :=
  (c5_no_translate_copied_never_requested
    [("SettingsSelectionItem_Common_Language_zh", "zh-CN")] noProvider 20 "es"
    (DiskFile.good [] none) "SettingsSelectionItem_Common_Language_zh"
    (by decide) (by decide)).1

/-- C8: for batch size at least 1, the translatable missing keys are split
into consecutive batches: their concatenation is exactly the (duplicate-free)
key list of `to_translate` in order, every batch is nonempty with at most
`batchSize` keys, every batch except possibly the last has exactly
`batchSize` keys, and the run submits exactly these batches, in order, as its
provider requests. -/
theorem c8_batching_shape_and_submission (base : Dict) (p : Provider) (bs : Nat)
    (ln : String) (ex : Dict) (hbs : 1 ≤ bs) :
    (batchesOf (dkeys (tkOf base ex)) bs).flatten = dkeys (tkOf base ex)
    ∧ (dkeys (tkOf base ex)).Nodup
    ∧ (∀ b ∈ batchesOf (dkeys (tkOf base ex)) bs, b ≠ [] ∧ b.length ≤ bs)
    ∧ (∀ b ∈ (batchesOf (dkeys (tkOf base ex)) bs).dropLast, b.length = bs)
    ∧ (syncResources base p bs ln ex).2
        = (batchesOf (dkeys (tkOf base ex)) bs).map (reqOf (tkOf base ex)) := by
  refine ⟨flatten_batchesOf hbs _, tk_keys_nodup base ex, ?_,
    batchesOf_dropLast_full hbs _, syncResources_trace base p bs ln ex⟩
  intro b hb
  have hshape := batchesOf_mem_shape hbs (dkeys (tkOf base ex)) b hb
  exact ⟨hshape.1, hshape.2.1⟩

/-- Witness for C8 at a concrete input. -/
theorem c8_batching_shape_and_submission_witness :
    (syncResources (dictOf [("A", "a"), ("B", "b"), ("C", "c")]) noProvider 2 "es" []).2
      = (batchesOf (dkeys (tkOf (dictOf [("A", "a"), ("B", "b"), ("C", "c")]) [])) 2).map
          (reqOf (tkOf (dictOf [("A", "a"), ("B", "b"), ("C", "c")]) [])) :=
  (c8_batching_shape_and_submission (dictOf [("A", "a"), ("B", "b"), ("C", "c")])
    noProvider 2 "es" [] (by decide)).2.2.2.2

end SyncI18n

namespace SyncI18n

/-- C6: batch failure is isolated.  If the provider returns the failure
signal for one batch of a file's run, while every other batch that succeeds
answers with exactly its own requested keys, then: the failed batch's keys
are absent from the merged mapping (hence missing from the rewritten file);
every successfully answered batch has all its returned pairs merged with
their returned values; and every batch — including the failed one — is still
submitted, in order (the run completes, rewriting the file). -/
theorem c6_batch_failure_isolated (base : Dict) (p : Provider) (bs : Nat)
    (ln : String) (ex : Dict) (bj : List Key) (hbs : 1 ≤ bs)
    (hbj : bj ∈ batchesOf (dkeys (tkOf base ex)) bs)
    (hfail : p (reqOf (tkOf base ex) bj) ln = none)
    (hsucc : ∀ b ∈ batchesOf (dkeys (tkOf base ex)) bs, b ≠ bj →
      ∀ ts, p (reqOf (tkOf base ex) b) ln = some ts → ts.map Prod.fst = b) :
    (∀ k ∈ bj, dmem (syncResources base p bs ln ex).1 k = false)
    ∧ (∀ b ∈ batchesOf (dkeys (tkOf base ex)) bs, ∀ ts,
        p (reqOf (tkOf base ex) b) ln = some ts →
        ∀ kv ∈ ts, dget? (syncResources base p bs ln ex).1 kv.1 = some kv.2)
    ∧ (syncResources base p bs ln ex).2
        = (batchesOf (dkeys (tkOf base ex)) bs).map (reqOf (tkOf base ex)) := by
  have hr : ∀ b ∈ batchesOf (dkeys (tkOf base ex)) bs, ∀ ts,
      p (reqOf (tkOf base ex) b) ln = some ts → ts.map Prod.fst = b := by
    intro b hb ts hts
    by_cases hbe : b = bj
    · subst hbe
      rw [hfail] at hts
      exact absurd hts (by simp)
    · exact hsucc b hb hbe ts hts
  have hnodup := tk_keys_nodup base ex
  have hflat := flatten_batchesOf hbs (dkeys (tkOf base ex))
  have hnodupflat : ((batchesOf (dkeys (tkOf base ex)) bs).flatten).Nodup := by
    rw [hflat]
    exact hnodup
  have hpair := List.nodup_flatten.mp hnodupflat
  have hfresh : ∀ b ∈ batchesOf (dkeys (tkOf base ex)) bs, ∀ k ∈ b,
      dmem (tkOf base ex) k = true ∧ dmem (preMergedOf base ex) k = false := by
    intro b hb k hk
    have h1 : dmem (tkOf base ex) k = true :=
      dmem_iff.mpr ((batchesOf_mem_sublist hb).mem hk)
    exact ⟨h1, tk_disjoint_pre h1⟩
  have htkne : tkOf base ex ≠ [] := by
    intro hc
    rw [hc, show dkeys [] = [] from rfl, batchesOf_nil0] at hbj
    simp at hbj
  have hmissne : missingOf base ex ≠ [] := by
    intro hc
    exact htkne (tkOf_missing_nil hc)
  have hsync1 : (syncResources base p bs ln ex).1
      = (runBatchesGo p ln (tkOf base ex) (batchesOf (dkeys (tkOf base ex)) bs)
          (preMergedOf base ex, [])).1 := by
    rw [syncResources, if_neg (by simp [hmissne]), if_neg (by simp [htkne]), runBatches]
  have hiso := runBatchesGo_isolation p ln (tkOf base ex)
    (batchesOf (dkeys (tkOf base ex)) bs) (preMergedOf base ex) [] hfresh hpair.1
    hpair.2 hr
  refine ⟨?_, ?_, syncResources_trace base p bs ln ex⟩
  · intro k hk
    rw [hsync1]
    exact (hiso.2 bj hbj k hk).1 hfail
  · intro b hb ts hts kv hkv
    rw [hsync1]
    have hkv1 : kv.1 ∈ b := by
      rw [← hr b hb ts hts]
      exact List.mem_map.mpr ⟨kv, hkv, rfl⟩
    exact (hiso.2 b hb kv.1 hkv1).2 ts kv.2 hts hkv

/-- Witness for C6 at a concrete input: six keys, batch size 2, the middle
batch fails. -/
theorem c6_batch_failure_isolated_witness :
    dmem (syncResources sixKeyBase failMidProvider 2 "es" []).1 "k3" = false :=
  (c6_batch_failure_isolated sixKeyBase failMidProvider 2 "es" [] ["k3", "k4"]
    (by decide) (by decide) (by decide)
    (by
      intro b hb hne ts hts
      by_cases hc : (reqOf (tkOf sixKeyBase []) b).map Prod.fst = ["k3", "k4"]
      · rw [map_fst_reqOf] at hc
        exact absurd hc hne
      · rw [failMidProvider, if_neg hc] at hts
        have hts2 : (reqOf (tkOf sixKeyBase []) b).map
            (fun q => (q.1, String.append "T" q.2)) = ts := Option.some.inj hts
        rw [← hts2, List.map_map]
        have hcomp : (Prod.fst ∘ fun q : Key × Val => (q.1, String.append "T" q.2))
            = (Prod.fst : Key × Val → Key) := rfl
        rw [hcomp, map_fst_reqOf])).1 "k3" (by decide)

/-- C7: with a provider that always succeeds and returns a translation for
exactly the requested keys, running the synchronizer a second time over the
directory produced by the first run reproduces that directory exactly: the
second run finds no missing keys in any rewritten file and the deterministic
rewrite emits the same entry sequence and comment (hence the same bytes). -/
theorem c7_second_run_reproduces_output (dir : List (String × DiskFile))
    (p : Provider) (bs : Nat)
    (hp : ∀ req lang, ∃ ts, p req lang = some ts ∧ ts.map Prod.fst = req.map Prod.fst)
    (hbs : 1 ≤ bs) :
    run (run dir p bs) p bs = run dir p bs := by
  rcases hb : dirFind dir "Strings.resx" with _ | bf
  · rw [run_eq_none hb, run_eq_none hb]
  · rw [run_eq_some hb]
    have hb2 := dirFind_map_runStep (dictOf (readOrdered bf))
      ((readOrdered bf).map Prod.fst) p bs hb
    rw [run_eq_some hb2, List.map_map]
    apply List.map_congr_left
    intro e _
    simp only [Function.comp_apply]
    exact runStep_idem (readOrdered bf) p bs hp hbs e

/-- Witness for C7 at a concrete input. -/
theorem c7_second_run_reproduces_output_witness :
    run (run sampleDir echoProvider 1) echoProvider 1 = run sampleDir echoProvider 1 :=
  c7_second_run_reproduces_output sampleDir echoProvider 1
    (fun req _ => ⟨req, rfl, rfl⟩) (by decide)

end SyncI18n
